import Mathlib

/-!
Verification of the moneyGuru core model (budget spawning, entry caching,
transaction balancing, undo engine) against its specification.

Sources embedded here:
- core/model/budget.py      (Budget.get_spawns, Budget.amount_for_date_range,
                             BudgetList.get_spawns)
- core/model/amount.py      (prorate_amount)
- core/model/entry.py       (EntryList.add_entry, cash_flow, clear)
- core/model/transaction.py (Transaction.balance, balance_currencies,
                             amount setter, splitted_splits)
- core/model/undo.py        (Action, Undoer: record, undo, redo, can_undo,
                             can_redo, set_save_point, clear, modified)

The repository ships several modules only as compiled C (core/model/_ccore:
Amount, Split, Transaction base, Account, UndoStep, inc_date) or not at all
(core/model/date.py: DateRange; core/model/recurrence.py: Spawn, DateCounter).
Definitions standing in for those are marked, and follow the spec text.

Conventions:
- Dates are day numbers (Nat).
- Monetary amounts in the budget and entry modules are integer values in one
  fixed currency; convert_amount (amount.py, lines 160-176) is the identity
  when source and target currency agree, which is the only case these code
  paths exercise in a single-currency document.  The transaction-balancing
  module models amounts with an explicit currency tag.
- Python sets of entity instances are modelled as Finsets of entity ids.
-/

/-! ## Date ranges

Modelled from the spec: core/model/date.py is not in the repository.
Spec 4.1: DateRange supports containment test, intersection and day-count
used for pro-rating; budget periods run from the recurrence date to the
period end inclusive, and the worked example (Jan 1-31 is 31 days,
Jan 16-26 is 11 days) fixes inclusive endpoints. -/

structure DateRange where
  start : Nat
  stop : Nat
deriving DecidableEq, Repr

/-- A date range is truthy (Python bool) when it contains at least one day. -/
def DateRange.nonempty (r : DateRange) : Bool := decide (r.start ≤ r.stop)

/-- Day count of an inclusive date range. -/
def DateRange.days (r : DateRange) : Nat := r.stop + 1 - r.start

/-- Intersection of two inclusive date ranges. -/
def DateRange.inter (r q : DateRange) : DateRange :=
  ⟨max r.start q.start, min r.stop q.stop⟩

/-- Membership of a day in a date range. -/
def DateRange.containsDay (r : DateRange) (d : Nat) : Bool :=
  decide (r.start ≤ d) && decide (d ≤ r.stop)

/-- The days of a range in order, for Python iteration over a DateRange. -/
def DateRange.toList (r : DateRange) : List Nat :=
  (List.range r.days).map (r.start + ·)

/-- prorate_amount from core/model/amount.py, lines 178-196: the part of
amount spread over spread_over_range that falls into wanted_range.
Returns 0 when the spread range is empty or the two ranges do not meet. -/
def prorateAmount (amount : ℚ) (spreadOverRange wantedRange : DateRange) : ℚ :=
  if ¬ spreadOverRange.nonempty then 0
  else
    let intersect := spreadOverRange.inter wantedRange
    if ¬ intersect.nonempty then 0
    else amount * ((intersect.days : ℚ) / (spreadOverRange.days : ℚ))

/-! ## Budget module (core/model/budget.py)

Transactions and spawns are reduced to what the budget engine reads:
an id, a date and a list of splits carrying an optional account id and an
integer amount in the document currency. -/

/-- Account as seen by the budget engine.  is_debit_account comes from
_ccore; modelled from the spec: asset and expense accounts are the debit
accounts. -/
structure BAccount where
  id : Nat
  isDebit : Bool
deriving DecidableEq, Repr

/-- A split of a real transaction or of a budget spawn. -/
structure BSplit where
  account : Option Nat
  amount : Int
deriving DecidableEq, Repr

/-- A real transaction, as read by Budget.get_spawns. -/
structure RealTxn where
  tid : Nat
  date : Nat
  splits : List BSplit
deriving DecidableEq, Repr

/-- Transaction.affected_accounts (transaction.py, lines 77-82): accounts
referenced by the splits. -/
def RealTxn.affectedAccounts (t : RealTxn) : List Nat :=
  t.splits.filterMap (·.account)

/-- Transaction.amount_for_account (transaction.py, lines 63-75): the sum
attributed to one account.  All amounts live in one currency here, so
convert_amount is the identity. -/
def RealTxn.amountForAccount (t : RealTxn) (a : Nat) : Int :=
  ((t.splits.filter (fun s => decide (s.account = some a))).map (·.amount)).sum

/-- A budget spawn.  Modelled from the spec (core/model/recurrence.py with
the Spawn class is not in the repository): a spawn is a transient
transaction carrying the recurrence date (period start) and an effective
date; for budgets the effective date is the period end.  A fresh spawn
copies the splits of the reference transaction, which Budget.get_spawns
creates empty (budget.py, line 60). -/
structure Spawn where
  recurrenceDate : Nat
  date : Nat
  splits : List BSplit
deriving DecidableEq, Repr

/-- Spawn amount attributed to one account (transaction.py, lines 63-75). -/
def Spawn.amountForAccount (s : Spawn) (a : Nat) : Int :=
  ((s.splits.filter (fun sp => decide (sp.account = some a))).map (·.amount)).sum

/-- Transaction.is_null (transaction.py, lines 468-471): all splits have a
null amount. -/
def Spawn.isNull (s : Spawn) : Bool :=
  s.splits.all (fun sp => decide (sp.amount = 0))

/-- Split debit (positive part of the amount), from _ccore; modelled from
the spec sign convention: positive amounts are debits. -/
def BSplit.debit (s : BSplit) : Int := if 0 < s.amount then s.amount else 0

/-- Transaction amount property, non-multi-currency branch (transaction.py,
lines 412-433): the sum of the debits of the splits. -/
def txnAmountOf (splits : List BSplit) : Int := (splits.map BSplit.debit).sum

/-- Transaction.splitted_splits (transaction.py, lines 395-410), computed on
split positions: froms are the negative splits, tos the positive ones; when
there is no positive split the last null split is moved to the tos side and
the remaining null splits join the froms. -/
def splitSides (splits : List BSplit) : List Nat × List Nat :=
  let withIdx := splits.enum
  let nulls := (withIdx.filter (fun p => decide (p.2.amount = 0))).map (·.1)
  let froms := (withIdx.filter (fun p => decide (p.2.amount < 0))).map (·.1)
  let tos := (withIdx.filter (fun p => decide (0 < p.2.amount))).map (·.1)
  match tos, nulls.reverse with
  | [], lastNull :: restRev => (froms ++ restRev.reverse, [lastNull])
  | _, _ => (froms ++ nulls, tos)

/-- Replace the account of the split at one position. -/
def setAccAt (splits : List BSplit) (i : Nat) (acc : Option Nat) : List BSplit :=
  splits.enum.map (fun p => if p.1 = i then { p.2 with account := acc } else p.2)

/-- Transaction.amount setter (transaction.py, lines 435-444) on the split
list: no-op when the value already equals the transaction amount, else the
splits are replaced by a two-way movement of the value between the first
debit account and the first credit account. -/
def setAmountSplits (splits : List BSplit) (value : Int) : List BSplit :=
  if value = txnAmountOf splits then splits
  else
    let debitAcc := match splits.find? (fun s => decide (0 < s.amount)) with
      | some s => s.account
      | none => none
    let creditAcc := match splits.find? (fun s => decide (s.amount < 0)) with
      | some s => s.account
      | none => none
    [⟨debitAcc, value⟩, ⟨creditAcc, -value⟩]

/-- Transaction.can_set_amount (transaction.py, lines 446-452): at most two
splits (never multi-currency in this single-currency module). -/
def canSetAmountSplits (splits : List BSplit) : Bool := decide (splits.length ≤ 2)

/-- The from_ branch of Transaction.change (transaction.py, lines 250-254):
when there is exactly one from-side split, its account is set. -/
def applyFromAcc (splits : List BSplit) (acc : Option Nat) : List BSplit :=
  match (splitSides splits).1 with
  | [i] => setAccAt splits i acc
  | _ => splits

/-- The to branch of Transaction.change (transaction.py, lines 255-259):
when there is exactly one to-side split, its account is set. -/
def applyToAcc (splits : List BSplit) (acc : Option Nat) : List BSplit :=
  match (splitSides splits).2 with
  | [i] => setAccAt splits i acc
  | _ => splits

/-- Transaction.change(amount=sa, from_=fromA, to=toA) as called by
Budget.get_spawns (budget.py, lines 84 and 86) on the split list: the
amount setter runs first with abs(sa) when can_set_amount holds
(transaction.py, lines 248-249), then the from_ and to single-split
account assignments. -/
def changeAmountFromTo (splits : List BSplit) (sa : Int) (fromA toA : Option Nat) :
    List BSplit :=
  let splits1 := if canSetAmountSplits splits then
      setAmountSplits splits (Int.natAbs sa : Int)
    else splits
  applyToAcc (applyFromAcc splits1 fromA) toA

/-- DateCounter iteration (core/model/recurrence.py, not in the repository).
Modelled from the spec, 4.1: a finite sequence of dates starting at start,
stepping by the repeat rule, terminating strictly before the end date.  The
repeat-type stepping (inc_date, from _ccore) is abstracted into the step
function; fuel bounds the recursion and suffices for any strictly
increasing step. -/
def dateCounterGo (step : Nat → Nat) : Nat → Nat → Nat → List Nat
  | 0, _, _ => []
  | fuel + 1, cur, stop =>
    if cur < stop then cur :: dateCounterGo step fuel (step cur) stop else []

/-- DateCounter(start_date, repeat_type, repeat_every, end). -/
def dateCounter (step : Nat → Nat) (startDate stop : Nat) : List Nat :=
  dateCounterGo step (stop - startDate) startDate stop

/-- A budget: an account and a budgeted amount (budget.py, lines 40-47). -/
structure Budget where
  account : BAccount
  amount : Int
deriving DecidableEq, Repr

/-- The per-spawn consumption loop of Budget.get_spawns (budget.py, lines
76-87): for each spawn, the not-yet-consumed relevant transactions falling
inside the spawn period are extracted, their summed amount reduces the
spawn (or nulls it when it meets or exceeds the budgeted amount), and they
are added to the consumed set. -/
def Budget.consumeLoop (accId : Nat) (budgetAmount : Int) :
    List Spawn → List RealTxn → Finset Nat → List Spawn × Finset Nat
  | [], _, consumed => ([], consumed)
  | spawn :: rest, relevant, consumed =>
    let part := relevant.partition
      (fun t => decide (spawn.recurrenceDate ≤ t.date) && decide (t.date ≤ spawn.date))
    let wheat := part.1
    let shaft := part.2
    let txnsAmount := (wheat.map (fun t => t.amountForAccount accId)).sum
    let spawn2 :=
      if txnsAmount.natAbs < budgetAmount.natAbs then
        let sa := budgetAmount - txnsAmount
        if spawn.amountForAccount accId ≠ sa then
          { spawn with splits := changeAmountFromTo spawn.splits sa (some accId) none }
        else spawn
      else
        { spawn with splits := changeAmountFromTo spawn.splits 0 (some accId) none }
    let consumed2 := consumed ∪ (wheat.map (·.tid)).toFinset
    let restOut := Budget.consumeLoop accId budgetAmount rest shaft consumed2
    (spawn2 :: restOut.1, restOut.2)

/-- Budget.get_spawns (budget.py, lines 57-89).  today is the ambient
date.today(); the consumed set is the in/out consumedtxns parameter,
returned as the second component.  Spawns whose period end is not after
today are skipped; each spawn starts from the empty-split reference. -/
def Budget.getSpawns (b : Budget) (startDate : Nat) (step : Nat → Nat) (endD : Nat)
    (today : Nat) (txns : List RealTxn) (consumed : Finset Nat) :
    List Spawn × Finset Nat :=
  let spawns := (dateCounter step startDate endD).filterMap (fun cur =>
    let endDate := step cur - 1
    if endDate ≤ today then none
    else some (⟨cur, endDate, []⟩ : Spawn))
  let budgetAmount := if b.account.isDebit then b.amount else -b.amount
  let relevant := txns.filter
    (fun t => decide (b.account.id ∈ t.affectedAccounts) && decide (t.tid ∉ consumed))
  Budget.consumeLoop b.account.id budgetAmount spawns relevant consumed

/-- The budget fold of BudgetList.get_spawns (budget.py, lines 165-182):
budgets run in list order; zero-amount budgets are skipped; budgets on the
same account share one consumed set through the account-indexed map; null
spawns are filtered out of the result. -/
def BudgetList.getSpawnsGo (startDate : Nat) (step : Nat → Nat) (untilDate today : Nat)
    (txns : List RealTxn) : List Budget → (Nat → Finset Nat) → List Spawn
  | [], _ => []
  | b :: rest, acc2cons =>
    if b.amount = 0 then
      BudgetList.getSpawnsGo startDate step untilDate today txns rest acc2cons
    else
      let res := b.getSpawns startDate step untilDate today txns (acc2cons b.account.id)
      let keep := res.1.filter (fun s => !s.isNull)
      keep ++ BudgetList.getSpawnsGo startDate step untilDate today txns rest
        (fun a => if a = b.account.id then res.2 else acc2cons a)

/-- BudgetList.get_spawns(until_date, txns): the fold starts from empty
consumed sets for every account. -/
def BudgetList.getSpawns (budgets : List Budget) (startDate : Nat) (step : Nat → Nat)
    (untilDate today : Nat) (txns : List RealTxn) : List Spawn :=
  BudgetList.getSpawnsGo startDate step untilDate today txns budgets (fun _ => ∅)

/-- The account-to-consumed-set map after the budget fold has processed a
list of budgets, used to state which transactions each budget consumed. -/
def BudgetList.runMap (startDate : Nat) (step : Nat → Nat) (untilDate today : Nat)
    (txns : List RealTxn) : List Budget → (Nat → Finset Nat) → (Nat → Finset Nat)
  | [], m => m
  | b :: rest, m =>
    if b.amount = 0 then
      BudgetList.runMap startDate step untilDate today txns rest m
    else
      BudgetList.runMap startDate step untilDate today txns rest
        (fun a => if a = b.account.id then
          (b.getSpawns startDate step untilDate today txns (m b.account.id)).2
         else m a)

/-- The set of transactions consumed by the budget at one position of the
list: the growth of the consumed set of its account when it runs. -/
def BudgetList.consumedDelta (budgets : List Budget) (startDate : Nat)
    (step : Nat → Nat) (untilDate today : Nat) (txns : List RealTxn) (k : Nat) :
    Finset Nat :=
  let acct := match budgets.get? k with
    | some b => b.account.id
    | none => 0
  let before := BudgetList.runMap startDate step untilDate today txns
    (budgets.take k) (fun _ => ∅)
  let after := BudgetList.runMap startDate step untilDate today txns
    (budgets.take (k + 1)) (fun _ => ∅)
  after acct \ before acct

/-- Budget.amount_for_date_range (budget.py, lines 92-118) over the spawns
produced by the previous get_spawns call: each spawn with a nonzero amount
contributes the pro-rated part of that amount, spread over the period from
max(recurrence date, tomorrow) to the spawn effective date. -/
def Budget.amountForDateRange (b : Budget) (prevSpawns : List Spawn) (today : Nat)
    (dateRange : DateRange) : ℚ :=
  prevSpawns.foldl (fun total s =>
    let amount : Int := s.amountForAccount b.account.id
    if amount = 0 then total
    else
      let myStartDate := max s.recurrenceDate (today + 1)
      let myDateRange : DateRange := ⟨myStartDate, s.date⟩
      total + prorateAmount (amount : ℚ) myDateRange dateRange) 0

/-! ## EntryList module (core/model/entry.py)

An entry is reduced to what EntryList reads: the entry date, its amount (a
single-currency integer value, so the per-entry convert_amount of
_cash_flow is the identity), the is_budget flag of its transaction
(a Spawn attribute from the missing recurrence.py, modelled from the spec:
true exactly for budget-generated spawns), and the reconciliation key.
Python dicts are modelled as association lists; the account back reference
and the entry index assigned by add_entry are not read by any embedded
operation and are omitted. -/

structure Entry where
  date : Nat
  amount : Int
  isBudgetTxn : Bool
  reconciliationKey : Nat
deriving DecidableEq, Repr

/-- Dictionary lookup on an association list, Python dict access. -/
def alookup {α : Type} : List (Nat × α) → Nat → Option α
  | [], _ => none
  | (k, v) :: rest, key => if k = key then some v else alookup rest key

/-- Cash-flow cache lookup keyed by (date_range, currency). -/
def clookup {α : Type} : List ((DateRange × Nat) × α) → DateRange × Nat → Option α
  | [], _ => none
  | (k, v) :: rest, key => if k = key then some v else clookup rest key

/-- The state of an EntryList (entry.py, lines 22-30): the ordered entries,
the date-to-entries dict, the sorted entry dates, the cash-flow cache keyed
by (date_range, currency code) and the last reconciled entry. -/
structure EntryList where
  entries : List Entry
  date2entries : List (Nat × List Entry)
  sortedEntryDates : List Nat
  daterange2cashflow : List ((DateRange × Nat) × Int)
  lastReconciled : Option Entry
deriving DecidableEq, Repr

/-- The state EntryList.__init__ builds (entry.py, lines 22-30). -/
def emptyEntryList : EntryList := ⟨[], [], [], [], none⟩

/-- defaultdict(list) append: extend the list under a key, creating it. -/
def d2eAppend (m : List (Nat × List Entry)) (d : Nat) (e : Entry) :
    List (Nat × List Entry) :=
  match m with
  | [] => [(d, [e])]
  | (k, v) :: rest => if k = d then (k, v ++ [e]) :: rest else (k, v) :: d2eAppend rest d e

/-- EntryList.add_entry (entry.py, lines 58-71): append the entry, index it
under its date, extend the sorted date list when the date advances, and
track the entry with the greatest reconciliation key. -/
def EntryList.addEntry (el : EntryList) (e : Entry) : EntryList :=
  { entries := el.entries ++ [e]
    date2entries := d2eAppend el.date2entries e.date e
    sortedEntryDates :=
      match el.sortedEntryDates.getLast? with
      | none => el.sortedEntryDates ++ [e.date]
      | some lastDate =>
        if lastDate < e.date then el.sortedEntryDates ++ [e.date] else el.sortedEntryDates
    daterange2cashflow := el.daterange2cashflow
    lastReconciled :=
      match el.lastReconciled with
      | none => some e
      | some lr => if lr.reconciliationKey ≤ e.reconciliationKey then some e else some lr }

/-- EntryList._cash_flow (entry.py, lines 50-55): over the days of the
range, the cached per-date entries are gathered, entries of budget-spawn
transactions are dropped, and the remaining amounts are summed. -/
def EntryList.cashFlowRaw (el : EntryList) (dr : DateRange) : Int :=
  let entries := (dr.toList.filterMap (fun d => alookup el.date2entries d)).flatten
  let kept := entries.filter (fun e => !e.isBudgetTxn)
  (kept.map (·.amount)).sum

/-- EntryList.cash_flow (entry.py, lines 95-108): serve from the
(date_range, currency) cache, computing and caching on a miss.  Returns
the updated state and the sum. -/
def EntryList.cashFlow (el : EntryList) (dr : DateRange) (cur : Nat) : EntryList × Int :=
  match clookup el.daterange2cashflow (dr, cur) with
  | some v => (el, v)
  | none =>
    let v := el.cashFlowRaw dr
    ({ el with daterange2cashflow := el.daterange2cashflow ++ [((dr, cur), v)] }, v)

/-- Python bisect.bisect_left on a sorted list of dates. -/
def bisectLeft (l : List Nat) (d : Nat) : Nat :=
  (l.takeWhile (fun x => decide (x < d))).length

/-- Python max(entries, key=reconciliation_key): first entry with the
greatest reconciliation key. -/
def maxByReconKey (l : List Entry) : Option Entry :=
  l.foldl (fun acc e =>
    match acc with
    | none => some e
    | some m => if m.reconciliationKey < e.reconciliationKey then some e else some m) none

/-- EntryList.clear (entry.py, lines 110-129): truncate the entries at
from_date (all of them for None); when entries remain, drop the per-date
indexes from the first date at or after from_date on, drop the cash-flow
cache lines whose range ends at or after from_date, truncate the sorted
dates and recompute the last reconciled entry; when no entry remains,
reset every cache wholesale. -/
def EntryList.clear (el : EntryList) (fromDate : Option Nat) : EntryList :=
  match fromDate with
  | none => emptyEntryList
  | some d =>
    match el.entries.takeWhile (fun e => decide (e.date < d)) with
    | [] => emptyEntryList
    | e0 :: rest =>
      let idx := bisectLeft el.sortedEntryDates d
      let removedDates := el.sortedEntryDates.drop idx
      ⟨e0 :: rest,
        el.date2entries.filter (fun p => !(removedDates.contains p.1)),
        el.sortedEntryDates.take idx,
        el.daterange2cashflow.filter (fun p => decide (p.1.1.stop < d)),
        maxByReconKey (e0 :: rest)⟩

/-- Consistency of an EntryList state, established by in-order add_entry
calls (the only producer, the Oven): entries are date-ordered, the sorted
date list is strictly increasing, the per-date index is keyed exactly by
the dates present and stores the entries of its date in order. -/
def EntryList.WF (el : EntryList) : Prop :=
  el.entries.Pairwise (fun a b => a.date ≤ b.date) ∧
  el.sortedEntryDates.Pairwise (· < ·) ∧
  (∀ p ∈ el.date2entries, p.1 ∈ el.sortedEntryDates) ∧
  (el.date2entries.map (·.1)).Nodup ∧
  (∀ p ∈ el.date2entries, p.2 = el.entries.filter (fun e => decide (e.date = p.1))) ∧
  (∀ e ∈ el.entries, e.date ∈ el.date2entries.map (·.1))

instance (el : EntryList) : Decidable el.WF := by
  unfold EntryList.WF
  infer_instance

/-! ## Transaction balancing module (core/model/transaction.py)

Amounts carry an explicit currency tag here because balance dispatches on
currency mixtures.  Python split objects are mutable and compared by
identity inside balance, so splits are paired with a numeric identity tag;
update and removal go by that tag. -/

/-- An Amount from _ccore, modelled from the spec, section 3: a value
tagged with a currency; arithmetic requires matching currencies except
when one operand is the zero sentinel, and the Python int 0 behaves like a
zero Amount of any currency. -/
structure Amount where
  value : Int
  cur : Nat
deriving DecidableEq, Repr

/-- Amount addition: a zero operand passes the other through; otherwise
the values add (the embedded code paths only add matching currencies,
having dispatched multi-currency work beforehand). -/
def Amount.add (a b : Amount) : Amount :=
  if a.value = 0 then b else if b.value = 0 then a else ⟨a.value + b.value, a.cur⟩

/-- Amount negation. -/
def Amount.neg (a : Amount) : Amount := ⟨-a.value, a.cur⟩

/-- Amount subtraction, a - b. -/
def Amount.sub (a b : Amount) : Amount := Amount.add a b.neg

/-- Python equality test between two amounts as reached by the embedded
code: zero amounts are all equal; nonzero amounts compare value and
currency. -/
def Amount.eqb (a b : Amount) : Bool :=
  if a.value = 0 && b.value = 0 then true
  else decide (a.value = b.value) && decide (a.cur = b.cur)

/-- Python sum() of amounts, starting from the int 0 sentinel. -/
def sumAmounts (l : List Amount) : Amount := l.foldl Amount.add ⟨0, 0⟩

/-- A split with a currency-tagged amount. -/
structure CSplit where
  account : Option Nat
  amount : Amount
deriving DecidableEq, Repr

/-- allsame over the currency codes of a nonempty split list (util.py,
lines 88-96): all equal to the first. -/
def allsameCur (l : List CSplit) : Bool :=
  match l with
  | [] => true
  | x :: rest => rest.all (fun s => decide (s.amount.cur = x.amount.cur))

/-- allsame over the signs of a nonempty amount list (transaction.py,
line 189): all on the side of the first. -/
def allsameSign (l : List Amount) : Bool :=
  match l with
  | [] => true
  | x :: rest => rest.all (fun a => decide (0 < a.value) = decide (0 < x.value))

/-- Currencies of the splits in order of first appearance, the iteration
order of the Python defaultdict of transaction.py, lines 184-186. -/
def dedupKeepFirst (l : List Nat) : List Nat :=
  l.foldl (fun acc c => if c ∈ acc then acc else acc ++ [c]) []

/-- A fresh identity tag for a split appended by balancing. -/
def freshId (l : List (Nat × CSplit)) : Nat :=
  (l.map (·.1)).foldr max 0 + 1

/-- Transaction.balance_currencies (transaction.py, lines 162-199) on
identity-tagged splits: per-currency balances are computed in first
appearance order, zeros stripped; when the remaining imbalances all sit on
one side, each is fixed against the first matching unassigned non-strong
split (removed when cancelled exactly, adjusted otherwise) or a fresh
unassigned split.  A split removed by an earlier pass keeps an amount that
is nonzero and of another currency, so it can never match a later pass;
looking candidates up in the live list is therefore equivalent to the
Python loop over the pre-computed candidate objects. -/
def balanceCurrencies (splits : List (Nat × CSplit)) (strong : Option Nat) :
    List (Nat × CSplit) :=
  let swa := splits.filter (fun p => decide (p.2.amount.value ≠ 0))
  if swa.isEmpty then splits
  else
    let curs := dedupKeepFirst (swa.map (·.2.amount.cur))
    let balances := curs.map (fun c =>
      sumAmounts ((swa.filter (fun p => decide (p.2.amount.cur = c))).map (·.2.amount)))
    let imbalanced := balances.filter (fun a => decide (a.value ≠ 0))
    if ¬ imbalanced.isEmpty && allsameSign imbalanced then
      let unassignedIds := (splits.filter
        (fun p => decide (p.2.account = none) && decide (strong ≠ some p.1))).map (·.1)
      imbalanced.foldl (fun (cur : List (Nat × CSplit)) a =>
        let cand := unassignedIds.find? (fun i =>
          match alookup cur i with
          | some s => decide (s.amount.value = 0) || decide (s.amount.cur = a.cur)
          | none => false)
        match cand with
        | some i =>
          match alookup cur i with
          | some s =>
            if s.amount.eqb a then cur.filter (fun p => decide (p.1 ≠ i))
            else cur.map (fun p => if p.1 = i then (p.1, { p.2 with amount := p.2.amount.sub a }) else p)
          | none => cur
        | none => cur ++ [(freshId cur, ⟨none, a.neg⟩)]) splits
    else splits

/-- The two-split special case of Transaction.balance (transaction.py,
lines 137-142): with exactly two splits and a strong split among them, the
weak split is mirrored (keep_two_splits) or flipped to the other side when
both sit on the same side. -/
def twoSplitAdjust (splits : List (Nat × CSplit)) (strong : Option Nat)
    (keepTwoSplits : Bool) : List (Nat × CSplit) :=
  match splits, strong with
  | [p0, p1], some si =>
    if p0.1 = si then
      if keepTwoSplits then [p0, (p1.1, { p1.2 with amount := p0.2.amount.neg })]
      else if decide (0 < p1.2.amount.value) = decide (0 < p0.2.amount.value) then
        [p0, (p1.1, { p1.2 with amount := ⟨p1.2.amount.value * (-1), p1.2.amount.cur⟩ })]
      else [p0, p1]
    else if p1.1 = si then
      if keepTwoSplits then [(p0.1, { p0.2 with amount := p1.2.amount.neg }), p1]
      else if decide (0 < p0.2.amount.value) = decide (0 < p1.2.amount.value) then
        [(p0.1, { p0.2 with amount := ⟨p0.2.amount.value * (-1), p0.2.amount.cur⟩ }), p1]
      else [p0, p1]
    else [p0, p1]
  | _, _ => splits

/-- Transaction.balance (transaction.py, lines 108-160) on identity-tagged
splits.  strong is the identity of the strong split (a split of this
transaction), keepTwoSplits the keep_two_splits flag.  The two-split
special case flips or mirrors the weak split, multi-currency split lists
are handed to balance_currencies, a nonzero imbalance is subtracted from
the first unassigned non-strong split or pushed into a fresh unassigned
split, and null unassigned non-strong splits are dropped. -/
def balanceSplits (splits : List (Nat × CSplit)) (strong : Option Nat)
    (keepTwoSplits : Bool) : List (Nat × CSplit) :=
  let splits1 : List (Nat × CSplit) := twoSplitAdjust splits strong keepTwoSplits
  let swa := splits1.filter (fun p => decide (p.2.amount.value ≠ 0))
  if ¬ swa.isEmpty && ¬ allsameCur (swa.map (·.2)) then
    balanceCurrencies splits1 strong
  else
    let imbalance := sumAmounts (splits1.map (·.2.amount))
    if imbalance.value = 0 then splits1
    else
      let isUnassigned := fun (p : Nat × CSplit) =>
        decide (p.2.account = none) && decide (strong ≠ some p.1)
      let splits2 : List (Nat × CSplit) :=
        match splits1.find? isUnassigned with
        | some p =>
          splits1.map (fun q =>
            if q.1 = p.1 then (q.1, { q.2 with amount := q.2.amount.sub imbalance }) else q)
        | none => splits1 ++ [(freshId splits1, ⟨none, imbalance.neg⟩)]
      splits2.filter (fun p => !(isUnassigned p && decide (p.2.amount.value = 0)))

/-! ## Undoer module (core/model/undo.py)

The entity graph is quotiented to what undo.py reads and writes: per kind,
a set of live identities (Python list membership; the claim concerns
memberships and field values, not list positions) and an identity-keyed
store of entity contents (Python objects stay alive while referenced).
The contents hold exactly the swapped attributes: groups swap name and
type (GROUP_SWAP_ATTRS), transactions swap their whole content through
replicate/copy_from, schedules swap SCHEDULE_SWAP_ATTRS plus the reference
transaction content, budgets swap BUDGET_SWAP_ATTRS; scalar attribute
groups are folded into one payload field.  UndoStep and the account list
(create_from, entries_for_account) live in _ccore and are modelled from
the spec: undo of a step removes the added accounts, re-inserts the
deleted ones and swaps the changed ones with their recorded before-images;
entries_for_account is modelled at transaction granularity, one entry per
live referencing transaction as per spec 4.5, derived from the current
transaction table. -/

/-- Account content: a scalar payload (name, currency, ...) and the
autocreated flag read by the garbage collection of undo.py, line 175. -/
structure AccountData where
  payload : Nat
  autocreated : Bool
deriving DecidableEq, Repr, Inhabited

/-- Group content: GROUP_SWAP_ATTRS = name and type. -/
structure GroupData where
  name : Nat
  type : Nat
deriving DecidableEq, Repr, Inhabited

/-- Transaction content as copied by replicate/copy_from: the date, the
remaining scalar fields folded into a payload, and the splits with their
account references and amounts. -/
structure TxnData where
  date : Nat
  payload : Nat
  splits : List (Option Nat × Int)
deriving DecidableEq, Repr, Inhabited

/-- Schedule content: SCHEDULE_SWAP_ATTRS folded into a payload plus the
reference transaction content, whose fields undo.py lines 150-152 swap
alongside. -/
structure SchedData where
  payload : Nat
  ref : TxnData
deriving DecidableEq, Repr, Inhabited

/-- Budget content: BUDGET_SWAP_ATTRS (schedule attributes plus account
and amount) folded into payload, account and amount. -/
structure BudgetData where
  payload : Nat
  account : Nat
  amount : Int
deriving DecidableEq, Repr, Inhabited

/-- A table of entities of one kind: the live identities and the
identity-keyed store of contents. -/
structure Table (α : Type) where
  live : Finset Nat
  store : List (Nat × α)
deriving DecidableEq

/-- setattr/copy_from on the entity of one identity. -/
def setStore {α : Type} : List (Nat × α) → Nat → α → List (Nat × α)
  | [], _, _ => []
  | (k, w) :: rest, i, v =>
    if k = i then (k, v) :: rest else (k, w) :: setStore rest i v

/-- The per-kind slice of an Action (undo.py, lines 24-59): the added and
deleted identity sets and the changed map from identity to the stored
image (the before-image after record, the after-image once undone). -/
structure Diff (α : Type) where
  added : Finset Nat
  deleted : Finset Nat
  chg : List (Nat × α)
deriving DecidableEq

/-- The changed-map treatment shared by undo and redo (_do_changes,
undo.py lines 139-154, and swapvalues, lines 18-22): for each changed
identity, the live content and the image held by the action are swapped.
Returns the updated changed map and store. -/
def doChanges {α : Type} : List (Nat × α) → List (Nat × α) →
    List (Nat × α) × List (Nat × α)
  | [], store => ([], store)
  | (i, bk) :: rest, store =>
    let cur := (alookup store i).getD bk
    let res := doChanges rest (setStore store i bk)
    ((i, cur) :: res.1, res.2)

/-- An Action (undo.py, lines 24-59) with an identity used for the save
point comparison (Python object identity); named UAction because Action
is taken by the ambient library. -/
structure UAction where
  aid : Nat
  accountsDiff : Diff AccountData
  groupsDiff : Diff GroupData
  txnsDiff : Diff TxnData
  schedulesDiff : Diff SchedData
  budgetsDiff : Diff BudgetData
deriving DecidableEq

/-- The account identities referenced by the splits of a transaction. -/
def txnRefs (t : TxnData) : Finset Nat := (t.splits.filterMap (·.1)).toFinset

/-- The autocreated flag of an account's stored content (undo.py, line
174 reads it off the split's account object, which stays alive while
referenced). -/
def acFlag (s : List (Nat × AccountData)) (b : Nat) : Bool :=
  ((alookup s b).getD default).autocreated

/-- Accounts referenced by the stored contents of a transaction set. -/
def refsOfSetS (store : List (Nat × TxnData)) (ts : Finset Nat) : Finset Nat :=
  ts.biUnion (fun i => txnRefs ((alookup store i).getD default))

/-- The live transactions whose content references an account.  Modelled
from the spec for _ccore/oven's entries_for_account (undo.py, line 171):
one entry per live referencing transaction, kept in step with the
transaction table, per spec 4.5 ("garbage-collected from the account list
when the last referencing transaction is undone away"). -/
def referencers (tl : Finset Nat) (store : List (Nat × TxnData)) (b : Nat) :
    Finset Nat :=
  tl.filter (fun t => b ∈ txnRefs ((alookup store t).getD default))

/-- The net of the _do_adds loop over a transaction set on the account
list (undo.py, lines 127-135): each re-added transaction's referenced
accounts missing from the list are re-created by create_from (modelled
from the spec: the account object's content is kept, so only liveness
changes); insertions commute, so over the set the net effect is a
union. -/
def doAddsAcc (store : List (Nat × TxnData)) (ts : Finset Nat)
    (acc : Table AccountData) : Table AccountData :=
  { acc with live := acc.live ∪ refsOfSetS store ts }

/-- The accounts collected by the _do_deletes loop over a transaction set
(undo.py, lines 155-164 with 167-176): before each removal, a referenced
auto-created account whose only entry belongs to the transaction being
removed is dropped from the list.  Over the whole loop, in any iteration
order, that drops exactly the referenced auto-created accounts all of
whose referencing live transactions are in the removed set. -/
def gcDeletes (accStore : List (Nat × AccountData)) (tl : Finset Nat)
    (store : List (Nat × TxnData)) (ts : Finset Nat) : Finset Nat :=
  (refsOfSetS store ts).filter
    (fun b => acFlag accStore b = true ∧ referencers tl store b ⊆ ts)

/-- The account-list effect of _do_deletes (txn liveness at loop entry is
tl; the store is not touched by the loop). -/
def doDeletesAcc (tl : Finset Nat) (store : List (Nat × TxnData)) (ts : Finset Nat)
    (acc : Table AccountData) : Table AccountData :=
  { acc with live := acc.live \ gcDeletes acc.store tl store ts }

/-- The _do_changes loop over changed transactions (undo.py, lines
142-147): per transaction, the auto-created accounts of the outgoing
content whose only entry belongs to this transaction are collected
(undo.py, line 175; the entry sets follow the store as the loop swaps),
content and action image are swapped, and the accounts of the incoming
content missing from the list are re-created. -/
def doChangesTxns (tl : Finset Nat) : List (Nat × TxnData) →
    List (Nat × TxnData) → Table AccountData →
    List (Nat × TxnData) × List (Nat × TxnData) × Table AccountData
  | [], store, acc => ([], store, acc)
  | (i, bk) :: rest, store, acc =>
    let cur := (alookup store i).getD bk
    let gci := (txnRefs cur).filter
      (fun b => acFlag acc.store b = true ∧ referencers tl store b = {i})
    let acc1 : Table AccountData := { acc with live := (acc.live \ gci) ∪ txnRefs bk }
    let res := doChangesTxns tl rest (setStore store i bk) acc1
    ((i, cur) :: res.1, res.2.1, res.2.2)

/-- The entity graph the Undoer mutates: the five collections handed to
its constructor (undo.py, line 112). -/
structure Graph where
  accounts : Table AccountData
  groups : Table GroupData
  txns : Table TxnData
  schedules : Table SchedData
  budgets : Table BudgetData
deriving DecidableEq

/-- One direction of the _ccore UndoStep on the account table, modelled
from the spec 4.5: insert one identity set, remove the other, swap the
changed accounts with the recorded images. -/
def undoStepRun (d : Diff AccountData) (ins del : Finset Nat)
    (acc : Table AccountData) : Diff AccountData × Table AccountData :=
  let res := doChanges d.chg acc.store
  ({ d with chg := res.1 }, ⟨(acc.live ∪ ins) \ del, res.2⟩)

/-- Undoer.undo on one action (undo.py, lines 236-257), phase by phase:
the account UndoStep runs backwards; the deleted entities are re-added
(re-creating accounts referenced by re-added transactions, whose store
contents are still the pre-swap ones); the added entities are removed
(collecting auto-created accounts of removed transactions, with the
deleted transactions already back in the live set); and the changed maps
are swapped.  Returns the updated action (its images now hold the other
side) and graph. -/
def undoAction (a : UAction) (g : Graph) : UAction × Graph :=
  let accRes := undoStepRun a.accountsDiff a.accountsDiff.deleted a.accountsDiff.added
    g.accounts
  let tl1 := g.txns.live ∪ a.txnsDiff.deleted
  let accounts1 := doDeletesAcc tl1 g.txns.store a.txnsDiff.added
    (doAddsAcc g.txns.store a.txnsDiff.deleted accRes.2)
  let tl2 := tl1 \ a.txnsDiff.added
  let groupsRes := doChanges a.groupsDiff.chg g.groups.store
  let txnsRes := doChangesTxns tl2 a.txnsDiff.chg g.txns.store accounts1
  let schedulesRes := doChanges a.schedulesDiff.chg g.schedules.store
  let budgetsRes := doChanges a.budgetsDiff.chg g.budgets.store
  (⟨a.aid, accRes.1, { a.groupsDiff with chg := groupsRes.1 },
    { a.txnsDiff with chg := txnsRes.1 },
    { a.schedulesDiff with chg := schedulesRes.1 },
    { a.budgetsDiff with chg := budgetsRes.1 }⟩,
   ⟨txnsRes.2.2,
    ⟨(g.groups.live ∪ a.groupsDiff.deleted) \ a.groupsDiff.added, groupsRes.2⟩,
    ⟨tl2, txnsRes.2.1⟩,
    ⟨(g.schedules.live ∪ a.schedulesDiff.deleted) \ a.schedulesDiff.added,
      schedulesRes.2⟩,
    ⟨(g.budgets.live ∪ a.budgetsDiff.deleted) \ a.budgetsDiff.added, budgetsRes.2⟩⟩)

/-- Undoer.redo on one action (undo.py, lines 259-279): the mirror of
undo, adding the added sets and deleting the deleted ones. -/
def redoAction (a : UAction) (g : Graph) : UAction × Graph :=
  let accRes := undoStepRun a.accountsDiff a.accountsDiff.added a.accountsDiff.deleted
    g.accounts
  let tl1 := g.txns.live ∪ a.txnsDiff.added
  let accounts1 := doDeletesAcc tl1 g.txns.store a.txnsDiff.deleted
    (doAddsAcc g.txns.store a.txnsDiff.added accRes.2)
  let tl2 := tl1 \ a.txnsDiff.deleted
  let groupsRes := doChanges a.groupsDiff.chg g.groups.store
  let txnsRes := doChangesTxns tl2 a.txnsDiff.chg g.txns.store accounts1
  let schedulesRes := doChanges a.schedulesDiff.chg g.schedules.store
  let budgetsRes := doChanges a.budgetsDiff.chg g.budgets.store
  (⟨a.aid, accRes.1, { a.groupsDiff with chg := groupsRes.1 },
    { a.txnsDiff with chg := txnsRes.1 },
    { a.schedulesDiff with chg := schedulesRes.1 },
    { a.budgetsDiff with chg := budgetsRes.1 }⟩,
   ⟨txnsRes.2.2,
    ⟨(g.groups.live ∪ a.groupsDiff.added) \ a.groupsDiff.deleted, groupsRes.2⟩,
    ⟨tl2, txnsRes.2.1⟩,
    ⟨(g.schedules.live ∪ a.schedulesDiff.added) \ a.schedulesDiff.deleted,
      schedulesRes.2⟩,
    ⟨(g.budgets.live ∪ a.budgetsDiff.added) \ a.budgetsDiff.deleted, budgetsRes.2⟩⟩)

/-- Python list indexing with a possibly negative index; None replaces the
IndexError of an out-of-range access. -/
def pyGet (l : List UAction) (i : Int) : Option UAction :=
  if i < 0 then
    if (l.length : Int) + i < 0 then none else l.get? ((l.length : Int) + i).toNat
  else l.get? i.toNat

/-- Writing a list cell at a possibly negative index. -/
def pySet (l : List UAction) (i : Int) (a : UAction) : List UAction :=
  if i < 0 then l.set ((l.length : Int) + i).toNat a else l.set i.toNat a

/-- The failure modes of undo/redo: the entry assertion and the list
indexing. -/
inductive UndoErr where
  | assertionError
  | indexError
deriving DecidableEq, Repr

/-- The Undoer state (undo.py, lines 112-120): the action list, the
cursor (a negative Python index), the save point (identity of the saved
action or None) and the entity graph it mutates. -/
structure Undoer where
  actions : List UAction
  index : Int
  savePoint : Option Nat
  graph : Graph
deriving DecidableEq

/-- Undoer.can_redo (undo.py, lines 179-185). -/
def Undoer.canRedo (u : Undoer) : Bool := decide (u.index < -1)

/-- Undoer.can_undo (undo.py, lines 187-192). -/
def Undoer.canUndo (u : Undoer) : Bool :=
  decide (-u.index ≤ (u.actions.length : Int))

/-- Undoer.clear (undo.py, lines 194-196): empties the action list only;
the cursor and the save point are left as they are. -/
def Undoer.clear (u : Undoer) : Undoer := { u with actions := [] }

/-- Undoer.set_save_point (undo.py, lines 208-215): remember the last
action of the list, or None on an empty list. -/
def Undoer.setSavePoint (u : Undoer) : Undoer :=
  { u with savePoint := (u.actions.getLast?).map (·.aid) }

/-- Undoer.record (undo.py, lines 217-234): when the cursor is not at the
end, the actions after it are discarded (the Python slice
actions[:index + 1]); the action is appended and the cursor reset to the
end. -/
def Undoer.record (u : Undoer) (a : UAction) : Undoer :=
  let actions1 := if u.index < -1 then
      u.actions.take ((u.actions.length : Int) + u.index + 1).toNat
    else u.actions
  { u with actions := actions1 ++ [a], index := -1 }

/-- Undoer.modified (undo.py, lines 281-289): the save point is compared
by identity against the action under the cursor, or against None when
nothing can be undone. -/
def Undoer.modified (u : Undoer) : Bool :=
  if u.canUndo then decide (u.savePoint ≠ (pyGet u.actions u.index).map (·.aid))
  else decide (u.savePoint ≠ none)

/-- Undoer.undo (undo.py, lines 236-257): assert can_undo, fetch the
action under the cursor, run it backwards and move the cursor down. -/
def Undoer.undo (u : Undoer) : Except UndoErr Undoer :=
  if ¬ u.canUndo then .error .assertionError
  else
    match pyGet u.actions u.index with
    | none => .error .indexError
    | some a =>
      let res := undoAction a u.graph
      .ok { u with
        actions := pySet u.actions u.index res.1
        graph := res.2
        index := u.index - 1 }

/-- Undoer.redo (undo.py, lines 259-279): assert can_redo, fetch the
action after the cursor, run it forwards and move the cursor up. -/
def Undoer.redo (u : Undoer) : Except UndoErr Undoer :=
  if ¬ u.canRedo then .error .assertionError
  else
    match pyGet u.actions (u.index + 1) with
    | none => .error .indexError
    | some a =>
      let res := redoAction a u.graph
      .ok { u with
        actions := pySet u.actions (u.index + 1) res.1
        graph := res.2
        index := u.index + 1 }

/-- Iterated undo, stopping at the first failure. -/
def iterateUndo : Nat → Undoer → Except UndoErr Undoer
  | 0, u => .ok u
  | n + 1, u =>
    match u.undo with
    | .ok u2 => iterateUndo n u2
    | .error e => .error e

/-- Iterated redo, stopping at the first failure. -/
def iterateRedo : Nat → Undoer → Except UndoErr Undoer
  | 0, u => .ok u
  | n + 1, u =>
    match u.redo with
    | .ok u2 => iterateRedo n u2
    | .error e => .error e

/-- Recording an action and applying its mutation to the graph, the
document-side protocol of a mutating command (spec 2, control flow):
record captures the before-images, then the mutation is applied; replaying
the incoming action forwards yields exactly the recorded action (holding
the before-images) and the mutated graph. -/
def applyAndRecord (u : Undoer) (a : UAction) : Undoer :=
  let res := redoAction a u.graph
  { (u.record res.1) with graph := res.2 }

/-- The graph after applying a list of incoming actions in order. -/
def applyGraphs : Graph → List UAction → Graph
  | g, [] => g
  | g, a :: rest => applyGraphs (redoAction a g).2 rest

/-- The recorded (before-image) forms of a list of incoming actions. -/
def backupForms : Graph → List UAction → List UAction
  | _, [] => []
  | g, a :: rest =>
    (redoAction a g).1 :: backupForms (redoAction a g).2 rest

/-- Consistency of one per-kind diff against a table: the added entities
are not yet live, the deleted ones are, the two sets are disjoint, and the
changed map has distinct identities that exist in the store. -/
def WFdiff {α : Type} (d : Diff α) (T : Table α) : Prop :=
  d.added ∩ T.live = ∅ ∧ d.deleted ⊆ T.live ∧ d.added ∩ d.deleted = ∅ ∧
  (d.chg.map (·.1)).Nodup ∧ ∀ p ∈ d.chg, (alookup T.store p.1).isSome = true

/-- The accounts referenced by the incoming images of a changed map. -/
def chgNewRefs (chg : List (Nat × TxnData)) : Finset Nat :=
  chg.foldr (fun p s => txnRefs p.2 ∪ s) ∅

/-- Graph consistency the document maintains between operations: live
transactions reference only live accounts, and every live auto-created
account is still referenced by some live transaction (otherwise the
garbage collection would already have removed it). -/
def WFgraph (g : Graph) : Prop :=
  (∀ t ∈ g.txns.live,
    txnRefs ((alookup g.txns.store t).getD default) ⊆ g.accounts.live) ∧
  (∀ b ∈ g.accounts.live, acFlag g.accounts.store b = true →
    referencers g.txns.live g.txns.store b ≠ ∅)

/-- Consistency of an incoming action with the graph it was recorded on,
as document.py establishes at record time: per-kind diff consistency; the
changed transactions are live and not also inserted by the same action;
the accounts freshly referenced by the incoming images or by the inserted
transactions (the ones the replay auto-creates) carry the autocreated
flag and are not yet referenced by any live transaction; no incoming
image references an account the action deletes; the incoming images of
transactions the action also removes reference only live accounts; the
inserted transactions reference no account the action deletes; and the
account changes do not flip the autocreated flag. -/
def WFaction (a : UAction) (g : Graph) : Prop :=
  WFdiff a.accountsDiff g.accounts ∧ WFdiff a.groupsDiff g.groups ∧
  WFdiff a.txnsDiff g.txns ∧ WFdiff a.schedulesDiff g.schedules ∧
  WFdiff a.budgetsDiff g.budgets ∧
  (∀ p ∈ a.txnsDiff.chg, p.1 ∈ g.txns.live ∧ p.1 ∉ a.txnsDiff.added) ∧
  (∀ b ∈ (refsOfSetS g.txns.store a.txnsDiff.added ∪ chgNewRefs a.txnsDiff.chg) \
      (g.accounts.live ∪ a.accountsDiff.added),
    acFlag g.accounts.store b = true ∧ referencers g.txns.live g.txns.store b = ∅) ∧
  (∀ p ∈ a.txnsDiff.chg, txnRefs p.2 ∩ a.accountsDiff.deleted = ∅) ∧
  (∀ p ∈ a.txnsDiff.chg, p.1 ∈ a.txnsDiff.deleted → txnRefs p.2 ⊆ g.accounts.live) ∧
  refsOfSetS g.txns.store a.txnsDiff.added ∩ a.accountsDiff.deleted = ∅ ∧
  (∀ p ∈ a.accountsDiff.chg, p.2.autocreated = acFlag g.accounts.store p.1)

/-- Consistency of a whole incoming action sequence along its run. -/
def WFseq : Graph → List UAction → Prop
  | _, [] => True
  | g, a :: rest => WFgraph g ∧ WFaction a g ∧ WFseq (redoAction a g).2 rest

instance {α : Type} (d : Diff α) (T : Table α) : Decidable (WFdiff d T) := by
  unfold WFdiff
  infer_instance

instance (g : Graph) : Decidable (WFgraph g) := by
  unfold WFgraph
  infer_instance

instance (a : UAction) (g : Graph) : Decidable (WFaction a g) := by
  unfold WFaction
  infer_instance

instance WFseqDec : (g : Graph) → (l : List UAction) → Decidable (WFseq g l)
  | _, [] => isTrue trivial
  | g, a :: rest =>
    haveI : Decidable (WFseq (redoAction a g).2 rest) := WFseqDec _ rest
    inferInstanceAs (Decidable (_ ∧ _ ∧ _))

instance {ε α : Type} [DecidableEq ε] [DecidableEq α] : DecidableEq (Except ε α) := fun
  | .ok a, .ok b => decidable_of_iff (a = b) (by simp)
  | .ok _, .error _ => isFalse (by simp)
  | .error _, .ok _ => isFalse (by simp)
  | .error e, .error f => decidable_of_iff (e = f) (by simp)

/-- The empty entity table. -/
def emptyTable {α : Type} : Table α := ⟨∅, []⟩

/-- The empty entity graph: a fresh document. -/
def freshGraph : Graph := ⟨emptyTable, emptyTable, emptyTable, emptyTable, emptyTable⟩

/-- The empty per-kind diff. -/
def emptyDiff {α : Type} : Diff α := ⟨∅, ∅, []⟩

/-- An action touching nothing, with a given identity. -/
def blankAction (i : Nat) : UAction :=
  ⟨i, emptyDiff, emptyDiff, emptyDiff, emptyDiff, emptyDiff⟩

/-- A freshly initialised Undoer over a graph (undo.py, lines 112-120). -/
def emptyUndoer (g : Graph) : Undoer := ⟨[], -1, none, g⟩

/-- A concrete Undoer holding two recorded actions with the first of them
already undone: the cursor sits one position below the end. -/
def recW : Undoer := ⟨[blankAction 1, blankAction 2], -2, none, freshGraph⟩

/-- A concrete Undoer whose single recorded action has been fully undone:
the cursor sits one below the whole list (index = -length - 1). -/
def recW2 : Undoer := ⟨[blankAction 1], -2, none, freshGraph⟩

/-- The Undoer state reached by record, record, undo, clear on a fresh
document. -/
def clearScenario : Except UndoErr Undoer :=
  Except.map Undoer.clear
    ((((emptyUndoer freshGraph).record (blankAction 1)).record (blankAction 2)).undo)

/-- A concrete graph: one live account (payload 10, not auto-created),
one live transaction 5 moving 25 through it, plus the contents of a
not-yet-live transaction 6 and of the auto-created account 9 that its
splits reference (the account object the forward mutation created). -/
def symG : Graph :=
  ⟨⟨{1}, [(1, ⟨10, false⟩), (9, ⟨77, true⟩)]⟩, emptyTable,
   ⟨{5}, [(5, ⟨100, 7, [(some 1, 25), (none, -25)]⟩),
          (6, ⟨101, 8, [(some 9, 5), (none, -5)]⟩)]⟩,
   emptyTable, emptyTable⟩

/-- An incoming action changing the payload of account 1. -/
def symA1 : UAction :=
  ⟨1, ⟨∅, ∅, [(1, ⟨11, false⟩)]⟩, emptyDiff, emptyDiff, emptyDiff, emptyDiff⟩

/-- An incoming action inserting transaction 6 — whose splits reference
the auto-created account 9, so its replay creates 9 and its undo
collects 9 again — and changing the date and payload of transaction 5. -/
def symA2 : UAction :=
  ⟨2, emptyDiff, emptyDiff,
   ⟨{6}, ∅, [(5, ⟨102, 3, [(some 1, 25), (none, -25)]⟩)]⟩,
   emptyDiff, emptyDiff⟩

/-- A fresh Undoer over the concrete graph. -/
def symW : Undoer := ⟨[], -1, none, symG⟩

/-- The two concrete incoming actions. -/
def symActs : List UAction := [symA1, symA2]

-- ===================== THEOREMS =====================

/-- The consumption loop only rewrites the splits of the spawns it was
given: every output spawn shares its dates with some input spawn. -/
theorem consumeLoop_mem_dates (accId : Nat) (ba : Int) :
    ∀ (spawns : List Spawn) (relevant : List RealTxn) (consumed : Finset Nat),
      ∀ s ∈ (Budget.consumeLoop accId ba spawns relevant consumed).1,
        ∃ s₀ ∈ spawns, s.date = s₀.date := by
  intro spawns
  induction spawns with
  | nil => intro relevant consumed s hs; simp [Budget.consumeLoop] at hs
  | cons sp rest ih =>
    intro relevant consumed s hs
    simp only [Budget.consumeLoop, List.mem_cons] at hs
    rcases hs with h | h
    · refine ⟨sp, List.mem_cons_self sp rest, ?_⟩
      subst h
      split_ifs <;> rfl
    · obtain ⟨s₀, hs₀, hd⟩ := ih _ _ s h
      exact ⟨s₀, List.mem_cons_of_mem _ hs₀, hd⟩

/-- The consumption loop only ever grows the consumed set. -/
theorem consumeLoop_consumed_mono (accId : Nat) (ba : Int) :
    ∀ (spawns : List Spawn) (relevant : List RealTxn) (consumed : Finset Nat),
      consumed ⊆ (Budget.consumeLoop accId ba spawns relevant consumed).2 := by
  intro spawns
  induction spawns with
  | nil => intro relevant consumed; simp [Budget.consumeLoop]
  | cons sp rest ih =>
    intro relevant consumed
    simp only [Budget.consumeLoop]
    exact Finset.Subset.trans Finset.subset_union_left (ih _ _)

/-- Budget.get_spawns only ever grows the consumed set it was given. -/
theorem getSpawns_consumed_mono (b : Budget) (startDate : Nat) (step : Nat → Nat)
    (endD today : Nat) (txns : List RealTxn) (consumed : Finset Nat) :
    consumed ⊆ (b.getSpawns startDate step endD today txns consumed).2 := by
  simp only [Budget.getSpawns]
  exact consumeLoop_consumed_mono _ _ _ _ _

/-- The budget fold over an appended list is the composition of the folds. -/
theorem runMap_append (startDate : Nat) (step : Nat → Nat) (untilDate today : Nat)
    (txns : List RealTxn) (l1 l2 : List Budget) (m : Nat → Finset Nat) :
    BudgetList.runMap startDate step untilDate today txns (l1 ++ l2) m =
      BudgetList.runMap startDate step untilDate today txns l2
        (BudgetList.runMap startDate step untilDate today txns l1 m) := by
  induction l1 generalizing m with
  | nil => simp [BudgetList.runMap]
  | cons b rest ih =>
    simp only [List.cons_append, BudgetList.runMap]
    by_cases hb : b.amount = 0
    · rw [if_pos hb, if_pos hb]; exact ih m
    · rw [if_neg hb, if_neg hb]; exact ih _

/-- Each per-account consumed set only grows along the budget fold. -/
theorem runMap_mono (startDate : Nat) (step : Nat → Nat) (untilDate today : Nat)
    (txns : List RealTxn) (l : List Budget) (m : Nat → Finset Nat) (a : Nat) :
    m a ⊆ BudgetList.runMap startDate step untilDate today txns l m a := by
  induction l generalizing m with
  | nil => simp [BudgetList.runMap]
  | cons b rest ih =>
    simp only [BudgetList.runMap]
    by_cases hb : b.amount = 0
    · rw [if_pos hb]; exact ih m
    · rw [if_neg hb]
      refine Finset.Subset.trans ?_ (ih _)
      show m a ⊆ if a = b.account.id then _ else m a
      by_cases ha : a = b.account.id
      · rw [if_pos ha, ha]
        exact getSpawns_consumed_mono _ _ _ _ _ _ _
      · rw [if_neg ha]

/-- Prefix monotonicity of the per-account consumed sets. -/
theorem runMap_take_mono (startDate : Nat) (step : Nat → Nat) (untilDate today : Nat)
    (txns : List RealTxn) (budgets : List Budget) (k k2 : Nat) (hk : k ≤ k2) (a : Nat)
    (m : Nat → Finset Nat) :
    BudgetList.runMap startDate step untilDate today txns (budgets.take k) m a ⊆
      BudgetList.runMap startDate step untilDate today txns (budgets.take k2) m a := by
  have h : budgets.take k2 = budgets.take k ++ (budgets.drop k).take (k2 - k) := by
    have e : k + (k2 - k) = k2 := by omega
    conv_lhs => rw [← e]
    rw [List.take_add]
  rw [h, runMap_append]
  exact runMap_mono _ _ _ _ _ _ _ _

/-- C1: budgets sharing an account never consume the same real transaction:
the sets of transactions consumed by two same-account budgets of the list
are disjoint, so a transaction already consumed by an earlier budget is
excluded from the computation of every later overlapping budget.
Concretely (second conjunct), two monthly budgets of 100 on the same debit
account 7, with one real transaction of 50 inside the shared period, spawn
remaining amounts of 50 and 100: the total budgeted remaining amount is
reduced by exactly 50, not 100 (the spawn amount is carried on the from
side of its two splits, hence the sign). -/
theorem budgetlist_no_double_count :
    (∀ (startDate : Nat) (step : Nat → Nat) (untilDate today : Nat)
        (txns : List RealTxn) (budgets : List Budget) (i j : Nat) (bi bj : Budget),
        i < j → budgets.get? i = some bi → budgets.get? j = some bj →
        bi.account.id = bj.account.id →
        Disjoint
          (BudgetList.consumedDelta budgets startDate step untilDate today txns i)
          (BudgetList.consumedDelta budgets startDate step untilDate today txns j)) ∧
    ((BudgetList.getSpawns
        [⟨⟨7, true⟩, 100⟩, ⟨⟨7, true⟩, 100⟩] 0 (fun d => d + 31) 31 0
        [⟨1, 10, [⟨some 7, 50⟩, ⟨none, -50⟩]⟩]).map
      (fun s => s.amountForAccount 7)).sum = -(100 + 100 - 50) := by
  constructor
  · intro startDate step untilDate today txns budgets i j bi bj hij hi hj hacc
    simp only [BudgetList.consumedDelta, hi, hj]
    rw [hacc]
    have h1 : BudgetList.runMap startDate step untilDate today txns
        (budgets.take (i + 1)) (fun _ => ∅) bj.account.id ⊆
        BudgetList.runMap startDate step untilDate today txns
        (budgets.take j) (fun _ => ∅) bj.account.id :=
      runMap_take_mono startDate step untilDate today txns budgets (i + 1) j
        (by omega) bj.account.id (fun _ => ∅)
    exact Disjoint.mono_left (Finset.Subset.trans Finset.sdiff_subset h1)
      Finset.sdiff_disjoint.symm
  · decide

/-- C4: Budget.get_spawns never emits a spawn whose period end is on or
before today: every returned spawn has an effective date strictly greater
than today. -/
theorem budget_spawns_never_in_past (b : Budget) (startDate : Nat) (step : Nat → Nat)
    (endD today : Nat) (txns : List RealTxn) (consumed : Finset Nat) :
    ∀ s ∈ (b.getSpawns startDate step endD today txns consumed).1, today < s.date := by
  intro s hs
  simp only [Budget.getSpawns] at hs
  obtain ⟨s₀, hs₀, hd⟩ := consumeLoop_mem_dates _ _ _ _ _ s hs
  rw [List.mem_filterMap] at hs₀
  obtain ⟨cur, _, hf⟩ := hs₀
  by_cases h : step cur - 1 ≤ today
  · simp [h] at hf
  · simp only [h, if_neg, ite_eq_right_iff] at hf
    have : s₀.date = step cur - 1 := by
      simp [h] at hf
      rw [← hf]
    omega


/-- Witness for C4 at a concrete input: a 100 budget on debit account 7,
monthly from day 0 cooked until day 31 with today = 0, emits the spawn for
the period 0-30, whose effective date 30 is after today. -/
theorem budget_spawns_never_in_past_witness :
    (0 : Nat) < (⟨0, 30, [⟨none, 100⟩, ⟨some 7, -100⟩]⟩ : Spawn).date :=
  budget_spawns_never_in_past ⟨⟨7, true⟩, 100⟩ 0 (fun d => d + 31) 31 0 [] ∅
    ⟨0, 30, [⟨none, 100⟩, ⟨some 7, -100⟩]⟩ (by decide)

/-- Witness for C1 at the two-budget overlap scenario: the consumed sets of
the two budgets on account 7 are disjoint. -/
theorem budgetlist_no_double_count_witness :
    Disjoint
      (BudgetList.consumedDelta [⟨⟨7, true⟩, 100⟩, ⟨⟨7, true⟩, 100⟩] 0 (fun d => d + 31)
        31 0 [⟨1, 10, [⟨some 7, 50⟩, ⟨none, -50⟩]⟩] 0)
      (BudgetList.consumedDelta [⟨⟨7, true⟩, 100⟩, ⟨⟨7, true⟩, 100⟩] 0 (fun d => d + 31)
        31 0 [⟨1, 10, [⟨some 7, 50⟩, ⟨none, -50⟩]⟩] 1) :=
  budgetlist_no_double_count.1 0 (fun d => d + 31) 31 0
    [⟨1, 10, [⟨some 7, 50⟩, ⟨none, -50⟩]⟩] [⟨⟨7, true⟩, 100⟩, ⟨⟨7, true⟩, 100⟩]
    0 1 ⟨⟨7, true⟩, 100⟩ ⟨⟨7, true⟩, 100⟩ (by decide) rfl rfl rfl

/-- C3: Budget.amount_for_date_range over previously generated spawns is
the sum, over the spawns, of the post-consumption spawn amount pro-rated by
the day overlap between the spawn effective period (clamped to start no
earlier than tomorrow) and the requested range, divided by the days of that
period; a spawn with a zero amount, an empty period, or no overlap
contributes zero.  Concretely (second conjunct), a spawn of 100 spread over
days 1-31 queried over days 16-26 with today = 0 yields 100 * 11 / 31. -/
theorem amount_for_date_range_prorates :
    (∀ (b : Budget) (spawns : List Spawn) (today : Nat) (dr : DateRange),
      b.amountForDateRange spawns today dr =
        (spawns.map (fun s =>
          let a : Int := s.amountForAccount b.account.id
          let pStart := max s.recurrenceDate (today + 1)
          if a = 0 ∨ s.date < pStart ∨ min s.date dr.stop < max pStart dr.start then 0
          else (a : ℚ) * ((min s.date dr.stop + 1 - max pStart dr.start : Nat) : ℚ) /
            ((s.date + 1 - pStart : Nat) : ℚ))).sum) ∧
    Budget.amountForDateRange ⟨⟨7, true⟩, 100⟩
      [⟨1, 31, [⟨some 7, 100⟩, ⟨none, -100⟩]⟩] 0 ⟨16, 26⟩ = 100 * 11 / 31 := by
  constructor
  · intro b spawns today dr
    induction spawns using List.reverseRecOn with
    | nil => simp [Budget.amountForDateRange]
    | append_singleton l x ih =>
      simp only [Budget.amountForDateRange, List.foldl_append, List.foldl_cons,
        List.foldl_nil] at ih ⊢
      rw [ih, List.map_append, List.sum_append]
      simp only [List.map_cons, List.map_nil, List.sum_cons, List.sum_nil, add_zero]
      by_cases ha : x.amountForAccount b.account.id = 0
      · rw [if_pos ha, if_pos (Or.inl ha), add_zero]
      · rw [if_neg ha]
        by_cases h1 : x.date < max x.recurrenceDate (today + 1)
        · have hb : ¬ (max x.recurrenceDate (today + 1) ≤ x.date) := by omega
          simp [prorateAmount, DateRange.nonempty, hb, ha, h1]
        · have hb1 : max x.recurrenceDate (today + 1) ≤ x.date := by omega
          by_cases h2 : min x.date dr.stop < max (max x.recurrenceDate (today + 1)) dr.start
          · have hb2 : ¬ (max (max x.recurrenceDate (today + 1)) dr.start ≤
                min x.date dr.stop) := by omega
            simp [prorateAmount, DateRange.nonempty, DateRange.inter, hb1, hb2, ha, h1, h2]
          · have hb2 : max (max x.recurrenceDate (today + 1)) dr.start ≤
                min x.date dr.stop := by omega
            simp [prorateAmount, DateRange.nonempty, DateRange.inter, DateRange.days,
              hb1, hb2, ha, h1, h2, mul_div_assoc]
  · simp [Budget.amountForDateRange, prorateAmount, DateRange.nonempty, DateRange.inter,
      DateRange.days, Spawn.amountForAccount]
    norm_num

/-- On a date-sorted entry list, the takeWhile truncation of clear is the
filter of the entries strictly before the cutoff. -/
theorem takeWhile_date_lt_eq_filter (d : Nat) :
    ∀ (l : List Entry), l.Pairwise (fun a b => a.date ≤ b.date) →
      l.takeWhile (fun e => decide (e.date < d)) = l.filter (fun e => decide (e.date < d)) := by
  intro l
  induction l with
  | nil => intro _; rfl
  | cons e rest ih =>
    intro hl
    rcases List.pairwise_cons.mp hl with ⟨he, hrest⟩
    by_cases h : e.date < d
    · simp [List.takeWhile_cons, List.filter_cons, h, ih hrest]
    · have hd : decide (e.date < d) = false := by simp [h]
      simp only [List.takeWhile_cons, List.filter_cons, hd]
      simp only [Bool.false_eq_true, if_false, cond_false]
      symm
      rw [List.filter_eq_nil_iff]
      intro x hx
      have := he x hx
      simp only [decide_eq_true_eq]
      omega

/-- On a sorted date list, the takeWhile prefix below a cutoff is the
filter below the cutoff. -/
theorem takeWhile_lt_eq_filter (d : Nat) :
    ∀ (l : List Nat), l.Pairwise (· < ·) →
      l.takeWhile (fun x => decide (x < d)) = l.filter (fun x => decide (x < d)) := by
  intro l
  induction l with
  | nil => intro _; rfl
  | cons x rest ih =>
    intro hl
    rcases List.pairwise_cons.mp hl with ⟨hx, hrest⟩
    by_cases h : x < d
    · simp [List.takeWhile_cons, List.filter_cons, h, ih hrest]
    · have hd : decide (x < d) = false := by simp [h]
      simp only [List.takeWhile_cons, List.filter_cons, hd]
      simp only [Bool.false_eq_true, if_false, cond_false]
      symm
      rw [List.filter_eq_nil_iff]
      intro y hy
      have := hx y hy
      simp only [decide_eq_true_eq]
      omega

/-- Taking as many elements as the takeWhile prefix yields the prefix. -/
theorem take_takeWhile_length {α : Type} (p : α → Bool) :
    ∀ (l : List α), l.take (l.takeWhile p).length = l.takeWhile p := by
  intro l
  induction l with
  | nil => rfl
  | cons x rest ih =>
    by_cases h : p x
    · simp [List.takeWhile_cons, h, ih]
    · simp [List.takeWhile_cons, h]

/-- Dropping as many elements as the takeWhile prefix yields the dropWhile
suffix. -/
theorem drop_takeWhile_length {α : Type} (p : α → Bool) :
    ∀ (l : List α), l.drop (l.takeWhile p).length = l.dropWhile p := by
  intro l
  induction l with
  | nil => rfl
  | cons x rest ih =>
    by_cases h : p x
    · simp [List.takeWhile_cons, List.dropWhile_cons, h, ih]
    · simp [List.takeWhile_cons, List.dropWhile_cons, h]

/-- On a sorted date list, everything the dropWhile suffix keeps is at or
after the cutoff. -/
theorem mem_dropWhile_ge (d : Nat) :
    ∀ (l : List Nat), l.Pairwise (· < ·) →
      ∀ x ∈ l.dropWhile (fun y => decide (y < d)), d ≤ x := by
  intro l
  induction l with
  | nil => intro _ x hx; simp [List.dropWhile] at hx
  | cons y rest ih =>
    intro hl x hx
    rcases List.pairwise_cons.mp hl with ⟨hy, hrest⟩
    by_cases h : y < d
    · rw [List.dropWhile_cons, if_pos (by simp [h])] at hx
      exact ih hrest x hx
    · rw [List.dropWhile_cons, if_neg (by simp [h])] at hx
      rcases List.mem_cons.mp hx with rfl | hx2
      · omega
      · have := hy x hx2
        omega

/-- C8 counterexample: a cash-flow sum cached for the range 1-2 (ending
before day 5) is dropped by clear(5) when no entry before day 5 remains,
although the claim says cached data for earlier dates is left unchanged. -/
theorem entrylist_clear_drops_early_cache :
    ((((emptyEntryList.addEntry ⟨10, 5, false, 3⟩).cashFlow ⟨1, 2⟩ 0).1.clear
        (some 5)).daterange2cashflow = []) ∧
    (((emptyEntryList.addEntry ⟨10, 5, false, 3⟩).cashFlow ⟨1, 2⟩ 0).1.daterange2cashflow =
      [((⟨1, 2⟩, 0), 0)]) ∧ (2 : Nat) < 5 := by
  decide

/-- C8 (amended): on a consistent EntryList, clear(D) truncates the
entries to exactly those strictly before D, and, provided at least one
entry strictly before D remains, removes exactly the per-date indexes and
sorted dates at or after D and exactly the cached cash-flow sums whose
range ends at or after D, leaving everything earlier unchanged; when no
entry before D remains every cache is reset wholesale (including cash-flow
sums for ranges ending before D), and clear(None) removes everything. -/
theorem entrylist_clear_exact (el : EntryList) (d : Nat) (hwf : el.WF) :
    ((el.clear (some d)).entries = el.entries.filter (fun e => decide (e.date < d))) ∧
    ((∃ e ∈ el.entries, e.date < d) →
      (el.clear (some d)).date2entries =
          el.date2entries.filter (fun p => decide (p.1 < d)) ∧
        (el.clear (some d)).sortedEntryDates =
          el.sortedEntryDates.filter (fun x => decide (x < d)) ∧
        (el.clear (some d)).daterange2cashflow =
          el.daterange2cashflow.filter (fun p => decide (p.1.1.stop < d))) ∧
    ((∀ e ∈ el.entries, d ≤ e.date) → el.clear (some d) = emptyEntryList) ∧
    (el.clear none = emptyEntryList) := by
  obtain ⟨hsorted, hsd, hkeys, hnodup, hvals, hcover⟩ := hwf
  have hfil := takeWhile_date_lt_eq_filter d el.entries hsorted
  cases hcase : el.entries.takeWhile (fun e => decide (e.date < d)) with
  | nil =>
    have hclear : el.clear (some d) = emptyEntryList := by
      simp [EntryList.clear, hcase]
    have hfe : el.entries.filter (fun e => decide (e.date < d)) = [] := by
      rw [← hfil, hcase]
    refine ⟨by rw [hclear, hfe]; rfl, ?_, fun _ => hclear, by simp [EntryList.clear]⟩
    rintro ⟨e, he, hlt⟩
    exfalso
    have hmem : e ∈ el.entries.filter (fun e => decide (e.date < d)) :=
      List.mem_filter.mpr ⟨he, by simpa using hlt⟩
    rw [hfe] at hmem
    simp at hmem
  | cons e0 rest =>
    have hclear : el.clear (some d) =
        ⟨e0 :: rest,
          el.date2entries.filter (fun p =>
            !((el.sortedEntryDates.drop (bisectLeft el.sortedEntryDates d)).contains p.1)),
          el.sortedEntryDates.take (bisectLeft el.sortedEntryDates d),
          el.daterange2cashflow.filter (fun p => decide (p.1.1.stop < d)),
          maxByReconKey (e0 :: rest)⟩ := by
      simp [EntryList.clear, hcase]
    have hdrop : el.sortedEntryDates.drop (bisectLeft el.sortedEntryDates d) =
        el.sortedEntryDates.dropWhile (fun x => decide (x < d)) := by
      rw [bisectLeft, drop_takeWhile_length]
    have htake : el.sortedEntryDates.take (bisectLeft el.sortedEntryDates d) =
        el.sortedEntryDates.filter (fun x => decide (x < d)) := by
      rw [bisectLeft, take_takeWhile_length, takeWhile_lt_eq_filter d _ hsd]
    refine ⟨by rw [hclear, ← hfil, hcase], ?_, ?_, by simp [EntryList.clear]⟩
    · intro _
      refine ⟨?_, by rw [hclear]; exact htake, by rw [hclear]⟩
      rw [hclear]
      show el.date2entries.filter _ = el.date2entries.filter _
      apply List.filter_congr
      intro p hp
      rw [hdrop]
      have hpk : p.1 ∈ el.sortedEntryDates := hkeys p hp
      by_cases hklt : p.1 < d
      · have hnotmem : p.1 ∉ el.sortedEntryDates.dropWhile (fun x => decide (x < d)) := by
          intro hmem
          have := mem_dropWhile_ge d el.sortedEntryDates hsd p.1 hmem
          omega
        have hc : (el.sortedEntryDates.dropWhile
            (fun x => decide (x < d))).contains p.1 = false := by
          by_contra hcc
          rw [Bool.not_eq_false] at hcc
          exact hnotmem (List.elem_iff.mp hcc)
        rw [hc]
        simp [hklt]
      · have hmem : p.1 ∈ el.sortedEntryDates.dropWhile (fun x => decide (x < d)) := by
          have hsplit : el.sortedEntryDates.takeWhile (fun x => decide (x < d)) ++
              el.sortedEntryDates.dropWhile (fun x => decide (x < d)) =
              el.sortedEntryDates :=
            List.takeWhile_append_dropWhile (fun x => decide (x < d)) el.sortedEntryDates
          rw [← hsplit] at hpk
          rcases List.mem_append.mp hpk with h1 | h2
          · exfalso
            have := List.mem_takeWhile_imp h1
            simp at this
            omega
          · exact h2
        have hc : (el.sortedEntryDates.dropWhile
            (fun x => decide (x < d))).contains p.1 = true :=
          List.elem_iff.mpr hmem
        rw [hc]
        simp [hklt]
    · intro hall
      exfalso
      have he0 : e0 ∈ el.entries.takeWhile (fun e => decide (e.date < d)) := by
        rw [hcase]; exact List.mem_cons_self e0 rest
      have hlt := List.mem_takeWhile_imp he0
      have he0mem : e0 ∈ el.entries :=
        (List.takeWhile_sublist (fun e : Entry => decide (e.date < d))).mem he0
      have := hall e0 he0mem
      simp at hlt
      omega

/-- Witness for C8 at a concrete two-entry list: clearing at day 5 keeps
exactly the entries dated before day 5. -/
theorem entrylist_clear_exact_witness :
    (((emptyEntryList.addEntry ⟨1, 5, false, 0⟩).addEntry ⟨10, 7, true, 1⟩).clear
        (some 5)).entries =
      ((emptyEntryList.addEntry ⟨1, 5, false, 0⟩).addEntry ⟨10, 7, true, 1⟩).entries.filter
        (fun e => decide (e.date < 5)) :=
  (entrylist_clear_exact ((emptyEntryList.addEntry ⟨1, 5, false, 0⟩).addEntry
    ⟨10, 7, true, 1⟩) 5 (by decide)).1

/-- A successful dictionary lookup returns a stored pair. -/
theorem alookup_mem {α : Type} :
    ∀ (m : List (Nat × α)) (k : Nat) (v : α), alookup m k = some v → (k, v) ∈ m := by
  intro m
  induction m with
  | nil => intro k v h; simp [alookup] at h
  | cons p rest ih =>
    obtain ⟨k2, v2⟩ := p
    intro k v h
    rw [alookup] at h
    by_cases hk : k2 = k
    · rw [if_pos hk] at h
      obtain rfl := Option.some.inj h
      subst hk
      exact List.mem_cons_self _ _
    · rw [if_neg hk] at h
      exact List.mem_cons_of_mem _ (ih k v h)

/-- A key that is present is found by the dictionary lookup. -/
theorem alookup_ne_none {α : Type} :
    ∀ (m : List (Nat × α)) (k : Nat), k ∈ m.map (·.1) → alookup m k ≠ none := by
  intro m
  induction m with
  | nil => intro k h; simp at h
  | cons p rest ih =>
    obtain ⟨k2, v2⟩ := p
    intro k h
    rw [alookup]
    by_cases hk : k2 = k
    · rw [if_pos hk]; simp
    · rw [if_neg hk]
      apply ih
      simp only [List.map_cons, List.mem_cons] at h
      rcases h with h | h
      · exact absurd h.symm hk
      · exact h

/-- A successful cash-flow cache lookup returns a stored pair. -/
theorem clookup_mem {α : Type} :
    ∀ (m : List ((DateRange × Nat) × α)) (k : DateRange × Nat) (v : α),
      clookup m k = some v → (k, v) ∈ m := by
  intro m
  induction m with
  | nil => intro k v h; simp [clookup] at h
  | cons p rest ih =>
    obtain ⟨k2, v2⟩ := p
    intro k v h
    rw [clookup] at h
    by_cases hk : k2 = k
    · rw [if_pos hk] at h
      obtain rfl := Option.some.inj h
      subst hk
      exact List.mem_cons_self _ _
    · rw [if_neg hk] at h
      exact List.mem_cons_of_mem _ (ih k v h)

/-- Sums of integer-valued maps distribute over pointwise addition. -/
theorem sum_map_add_int {α : Type} (f g : α → Int) (L : List α) :
    (L.map (fun x => f x + g x)).sum = (L.map f).sum + (L.map g).sum := by
  induction L with
  | nil => simp
  | cons x rest ih =>
    simp only [List.map_cons, List.sum_cons, ih]
    omega

/-- Summing an indicator of one date over a duplicate-free date list. -/
theorem sum_if_mem (d0 : Nat) (a : Int) :
    ∀ (L : List Nat), L.Nodup →
      (L.map (fun dd => if d0 = dd then a else 0)).sum = if d0 ∈ L then a else 0 := by
  intro L
  induction L with
  | nil => intro _; simp
  | cons x rest ih =>
    intro hL
    rcases List.nodup_cons.mp hL with ⟨hx, hrest⟩
    by_cases h : d0 = x
    · subst h
      simp only [List.map_cons, List.sum_cons, if_pos rfl, ih hrest]
      simp [hx]
    · simp only [List.map_cons, List.sum_cons, if_neg h, ih hrest, zero_add]
      simp [List.mem_cons, h]

/-- Exchanging a sum per date against a sum over the filtered entries: over
a duplicate-free date list, summing the amounts of entries of each date
equals summing the amounts of the entries whose date is in the list. -/
theorem sum_over_dates (p : Entry → Bool) :
    ∀ (es : List Entry) (L : List Nat), L.Nodup →
      (L.map (fun dd =>
        (((es.filter (fun e => decide (e.date = dd))).filter p).map (fun e => e.amount)).sum)).sum
      = ((es.filter (fun e => decide (e.date ∈ L) && p e)).map (fun e => e.amount)).sum := by
  intro es
  induction es with
  | nil => intro L hL; simp
  | cons e rest ih =>
    intro L hL
    by_cases hp : p e
    · have hsplit : ∀ dd : Nat,
          ((((e :: rest).filter (fun e => decide (e.date = dd))).filter p).map
            (fun e => e.amount)).sum
          = (if e.date = dd then e.amount else 0) +
            (((rest.filter (fun e => decide (e.date = dd))).filter p).map
              (fun e => e.amount)).sum := by
        intro dd
        by_cases h1 : e.date = dd
        · simp [List.filter_cons, h1, hp]
        · simp [List.filter_cons, h1]
      rw [List.map_congr_left (fun dd _ => hsplit dd), sum_map_add_int, ih L hL,
        sum_if_mem e.date e.amount L hL]
      by_cases hm : e.date ∈ L
      · simp [List.filter_cons, hm, hp]
      · simp [List.filter_cons, hm, hp]
    · have hsplit : ∀ dd : Nat,
          ((((e :: rest).filter (fun e => decide (e.date = dd))).filter p).map
            (fun e => e.amount)).sum
          = (((rest.filter (fun e => decide (e.date = dd))).filter p).map
              (fun e => e.amount)).sum := by
        intro dd
        by_cases h1 : e.date = dd
        · simp [List.filter_cons, h1, hp]
        · simp [List.filter_cons, h1]
      rw [List.map_congr_left (fun dd _ => hsplit dd), ih L hL]
      simp [List.filter_cons, hp]

/-- Skipping missing dictionary dates is flattening the empty default. -/
theorem flatten_filterMap_alookup {α : Type} (m : List (Nat × List α)) :
    ∀ (L : List Nat),
      (L.filterMap (fun dd => alookup m dd)).flatten =
        (L.map (fun dd => (alookup m dd).getD [])).flatten := by
  intro L
  induction L with
  | nil => rfl
  | cons dd rest ih =>
    cases h : alookup m dd with
    | none => simp [List.filterMap_cons, h, ih]
    | some v => simp [List.filterMap_cons, h, ih]

/-- Filter-map-sum over a flattened list of lists is the sum of the
per-list filtered sums. -/
theorem sum_filter_map_flatten (q : Entry → Bool) :
    ∀ (ll : List (List Entry)),
      (((ll.flatten).filter q).map (fun e => e.amount)).sum =
        (ll.map (fun l => ((l.filter q).map (fun e => e.amount)).sum)).sum := by
  intro ll
  induction ll with
  | nil => rfl
  | cons l rest ih =>
    simp only [List.flatten_cons, List.filter_append, List.map_append, List.sum_append,
      List.map_cons, List.sum_cons, ih]

/-- Day membership in the day list of a range. -/
theorem mem_toList_iff (dr : DateRange) (dd : Nat) :
    dd ∈ dr.toList ↔ (dr.start ≤ dd ∧ dd ≤ dr.stop) := by
  simp only [DateRange.toList, List.mem_map, List.mem_range, DateRange.days]
  constructor
  · rintro ⟨i, hi, rfl⟩
    omega
  · rintro ⟨h1, h2⟩
    exact ⟨dd - dr.start, by omega, by omega⟩

/-- The day list of a range has no duplicates. -/
theorem toList_nodup (dr : DateRange) : dr.toList.Nodup :=
  List.Nodup.map (fun a b h => by omega) (List.nodup_range _)

/-- On a consistent state, the per-date index stores exactly the entries of
its date. -/
theorem alookup_getD_eq (el : EntryList) (hwf : el.WF) (dd : Nat) :
    (alookup el.date2entries dd).getD [] =
      el.entries.filter (fun e => decide (e.date = dd)) := by
  obtain ⟨_, _, _, _, hvals, hcover⟩ := hwf
  cases h : alookup el.date2entries dd with
  | some v =>
    have hm := alookup_mem _ _ _ h
    simpa using hvals (dd, v) hm
  | none =>
    simp only [Option.getD_none]
    symm
    rw [List.filter_eq_nil_iff]
    intro e he
    simp only [decide_eq_true_eq]
    intro hdate
    have hk := hcover e he
    rw [hdate] at hk
    exact alookup_ne_none _ _ hk h

/-- The raw cash flow of a range sums exactly the amounts of the non-budget
entries dated inside the range. -/
theorem cashFlowRaw_eq (el : EntryList) (dr : DateRange) (hwf : el.WF) :
    el.cashFlowRaw dr =
      ((el.entries.filter (fun e => dr.containsDay e.date && !e.isBudgetTxn)).map
        (fun e => e.amount)).sum := by
  simp only [EntryList.cashFlowRaw]
  rw [flatten_filterMap_alookup, sum_filter_map_flatten, List.map_map]
  simp only [Function.comp_def]
  have hstep : ∀ dd ∈ dr.toList,
      ((((alookup el.date2entries dd).getD []).filter (fun e => !e.isBudgetTxn)).map
        (fun e => e.amount)).sum
      = (((el.entries.filter (fun e => decide (e.date = dd))).filter
          (fun e => !e.isBudgetTxn)).map (fun e => e.amount)).sum := by
    intro dd _
    rw [alookup_getD_eq el hwf dd]
  rw [List.map_congr_left hstep, sum_over_dates _ el.entries dr.toList (toList_nodup dr)]
  apply congrArg List.sum
  congr 1
  apply List.filter_congr
  intro e _
  have hcd : decide (e.date ∈ dr.toList) = dr.containsDay e.date := by
    rw [DateRange.containsDay]
    by_cases h1 : dr.start ≤ e.date
    · by_cases h2 : e.date ≤ dr.stop
      · have hm : e.date ∈ dr.toList := (mem_toList_iff dr e.date).mpr ⟨h1, h2⟩
        simp [hm, h1, h2]
      · have hm : e.date ∉ dr.toList := by
          rw [mem_toList_iff]; omega
        simp [hm, h2]
    · have hm : e.date ∉ dr.toList := by
        rw [mem_toList_iff]; omega
      simp [hm, h1]
  rw [hcd]

/-- C10: EntryList.cash_flow sums only the amounts of the entries whose
transaction is not a budget spawn: with a consistent per-date index and a
consistent cache, the served sum counts exactly the non-budget entries
dated inside the range, and entries of budget spawns, although present in
the entry list, never contribute. -/
theorem cash_flow_excludes_budget_spawns (el : EntryList) (dr : DateRange) (cur : Nat)
    (hwf : el.WF)
    (hcache : ∀ p ∈ el.daterange2cashflow, p.2 = el.cashFlowRaw p.1.1) :
    (el.cashFlow dr cur).2 =
      ((el.entries.filter (fun e => dr.containsDay e.date && !e.isBudgetTxn)).map
        (fun e => e.amount)).sum := by
  cases h : clookup el.daterange2cashflow (dr, cur) with
  | some v =>
    have hm := clookup_mem _ _ _ h
    have hv : v = el.cashFlowRaw dr := hcache _ hm
    simp only [EntryList.cashFlow, h]
    rw [hv]
    exact cashFlowRaw_eq el dr hwf
  | none =>
    simp only [EntryList.cashFlow, h]
    exact cashFlowRaw_eq el dr hwf

/-- Witness for C10 at a concrete state: a real entry of 10 on day 3 and a
budget-spawn entry of 20 on day 4 give a cash flow of 10 over days 1-5. -/
theorem cash_flow_excludes_budget_spawns_witness :
    (((emptyEntryList.addEntry ⟨3, 10, false, 0⟩).addEntry ⟨4, 20, true, 1⟩).cashFlow
        ⟨1, 5⟩ 0).2 =
      ((((emptyEntryList.addEntry ⟨3, 10, false, 0⟩).addEntry
          ⟨4, 20, true, 1⟩).entries.filter
        (fun e => (DateRange.mk 1 5).containsDay e.date && !e.isBudgetTxn)).map
        (fun e => e.amount)).sum :=
  cash_flow_excludes_budget_spawns ((emptyEntryList.addEntry ⟨3, 10, false, 0⟩).addEntry
    ⟨4, 20, true, 1⟩) ⟨1, 5⟩ 0 (by decide) (by decide)

/-- Amount addition adds the values, whatever the currency tags. -/
theorem amount_add_value (a b : Amount) : (a.add b).value = a.value + b.value := by
  rw [Amount.add]
  split_ifs with h1 h2
  · omega
  · omega
  · rfl

/-- Amount subtraction subtracts the values. -/
theorem amount_sub_value (a b : Amount) : (a.sub b).value = a.value - b.value := by
  rw [Amount.sub, amount_add_value]
  simp only [Amount.neg]
  omega

/-- The Python sum of amounts sums the values. -/
theorem sumAmounts_value (l : List Amount) :
    (sumAmounts l).value = (l.map (·.value)).sum := by
  have h : ∀ (init : Amount),
      (l.foldl Amount.add init).value = init.value + (l.map (·.value)).sum := by
    induction l with
    | nil => intro init; simp
    | cons a rest ih =>
      intro init
      rw [List.foldl_cons, ih]
      simp only [List.map_cons, List.sum_cons, amount_add_value]
      omega
  simpa using h ⟨0, 0⟩

/-- Updating the split of one identity changes the value sum by the
difference at that identity. -/
theorem sum_map_update_sub (im : Amount) (i : Nat) :
    ∀ (l : List (Nat × CSplit)), (l.map (·.1)).Nodup → (∃ s, (i, s) ∈ l) →
      ((l.map (fun q =>
        if q.1 = i then (q.1, { q.2 with amount := q.2.amount.sub im }) else q)).map
          (fun p => p.2.amount.value)).sum
      = (l.map (fun p => p.2.amount.value)).sum - im.value := by
  intro l
  induction l with
  | nil => rintro _ ⟨s, hs⟩; simp at hs
  | cons q rest ih =>
    rintro hnd ⟨s, hs⟩
    simp only [List.map_cons, List.nodup_cons] at hnd
    obtain ⟨hq, hrest⟩ := hnd
    rcases List.mem_cons.mp hs with heq | hmem
    · subst heq
      have hrestid : rest.map (fun r =>
          if r.1 = i then (r.1, { r.2 with amount := r.2.amount.sub im }) else r) = rest := by
        have hcg : ∀ p ∈ rest,
            (if p.1 = i then (p.1, { p.2 with amount := p.2.amount.sub im }) else p) = p := by
          intro p hp
          apply if_neg
          intro hpi
          exact hq (List.mem_map.mpr ⟨p, hp, hpi⟩)
        rw [List.map_congr_left hcg]
        simp
      simp only [List.map_cons, List.sum_cons, hrestid]
      simp [amount_sub_value]
      omega
    · have hqid : q.1 ≠ i := by
        intro hqi
        exact hq (List.mem_map.mpr ⟨(i, s), hmem, hqi.symm⟩)
      rw [List.map_cons, List.map_cons, List.sum_cons, if_neg hqid, List.map_cons,
        List.sum_cons, ih hrest ⟨s, hmem⟩]
      omega

/-- Dropping only zero-valued elements preserves the value sum. -/
theorem sum_filter_keep (q : Nat × CSplit → Bool) :
    ∀ (l : List (Nat × CSplit)), (∀ p ∈ l, q p = false → p.2.amount.value = 0) →
      ((l.filter q).map (fun p => p.2.amount.value)).sum
        = (l.map (fun p => p.2.amount.value)).sum := by
  intro l
  induction l with
  | nil => intro _; rfl
  | cons p rest ih =>
    intro h
    have ihr := ih (fun r hr => h r (List.mem_cons_of_mem _ hr))
    by_cases hp : q p
    · simp [List.filter_cons, hp, ihr]
    · have hz := h p (List.mem_cons_self _ _) (by simpa using hp)
      simp [List.filter_cons, hp, ihr, hz]

/-- The two-split adjustment keeps the identity tags. -/
theorem twoSplitAdjust_ids (splits : List (Nat × CSplit)) (strong : Option Nat)
    (keepTwoSplits : Bool) :
    (twoSplitAdjust splits strong keepTwoSplits).map (·.1) = splits.map (·.1) := by
  cases strong with
  | none =>
    cases splits with
    | nil => rfl
    | cons p0 r1 =>
      cases r1 with
      | nil => rfl
      | cons p1 r2 => cases r2 with
        | nil => rfl
        | cons p2 r3 => rfl
  | some si =>
    cases splits with
    | nil => rfl
    | cons p0 r1 =>
      cases r1 with
      | nil => rfl
      | cons p1 r2 => cases r2 with
        | nil =>
          rw [twoSplitAdjust]
          split_ifs <;> simp
        | cons p2 r3 => rfl

/-- The two-split adjustment preserves the single-currency bound. -/
theorem twoSplitAdjust_cur (splits : List (Nat × CSplit)) (strong : Option Nat)
    (keepTwoSplits : Bool) (c : Nat)
    (h : ∀ p ∈ splits, p.2.amount.value = 0 ∨ p.2.amount.cur = c) :
    ∀ p ∈ twoSplitAdjust splits strong keepTwoSplits,
      p.2.amount.value = 0 ∨ p.2.amount.cur = c := by
  cases strong with
  | none =>
    cases splits with
    | nil => exact h
    | cons p0 r1 =>
      cases r1 with
      | nil => exact h
      | cons p1 r2 => cases r2 with
        | nil => exact h
        | cons p2 r3 => exact h
  | some si =>
    cases splits with
    | nil => exact h
    | cons p0 r1 =>
      cases r1 with
      | nil => exact h
      | cons p1 r2 => cases r2 with
        | cons p2 r3 => exact h
        | nil =>
          have h0 := h p0 (List.mem_cons_self _ _)
          have h1 := h p1 (List.mem_cons_of_mem _ (List.mem_cons_self _ _))
          intro p hp
          rw [twoSplitAdjust] at hp
          split_ifs at hp <;>
            simp only [List.mem_cons, List.not_mem_nil, or_false] at hp <;>
            rcases hp with rfl | rfl <;>
            (try simp only [Amount.neg]) <;> (first | tauto | omega)

/-- A split list whose members all carry one currency passes allsame. -/
theorem allsameCur_of_all (c : Nat) :
    ∀ (l : List CSplit), (∀ s ∈ l, s.amount.cur = c) → allsameCur l = true := by
  intro l h
  cases l with
  | nil => rfl
  | cons x rest =>
    rw [allsameCur, List.all_eq_true]
    intro s hs
    have h1 := h s (List.mem_cons_of_mem _ hs)
    have h2 := h x (List.mem_cons_self _ _)
    simp [h1, h2]

/-- C7 (amended): for a transaction whose nonzero split amounts all share
one currency, Transaction.balance establishes the zero-sum invariant, and
the amount setter always rebuilds a two-way zero-sum split pair; the
balance-terminated public mutations (set_splits + balance, remove_split)
therefore re-establish the invariant.  Multi-currency transactions are
only balanced in the weaker logical sense and need not sum to zero (see
the counterexample). -/
theorem transaction_balance_zero_sum :
    (∀ (splits : List (Nat × CSplit)) (strong : Option Nat) (keepTwoSplits : Bool)
        (c : Nat),
      (splits.map (·.1)).Nodup →
      (∀ p ∈ splits, p.2.amount.value = 0 ∨ p.2.amount.cur = c) →
      ((balanceSplits splits strong keepTwoSplits).map
        (fun p => p.2.amount.value)).sum = 0) ∧
    (∀ (splits : List BSplit) (value : Int), value ≠ txnAmountOf splits →
      ((setAmountSplits splits value).map (·.amount)).sum = 0) := by
  constructor
  · intro splits strong keepTwo c hnd hcur
    have hcur1 := twoSplitAdjust_cur splits strong keepTwo c hcur
    have hnd1 : ((twoSplitAdjust splits strong keepTwo).map (·.1)).Nodup := by
      rw [twoSplitAdjust_ids]
      exact hnd
    have hAll : allsameCur (((twoSplitAdjust splits strong keepTwo).filter
        (fun p => decide (p.2.amount.value ≠ 0))).map (·.2)) = true := by
      apply allsameCur_of_all c
      intro s hs
      obtain ⟨p, hp, hps⟩ := List.mem_map.mp hs
      obtain ⟨hpmem, hpval⟩ := List.mem_filter.mp hp
      rcases hcur1 p hpmem with h0 | h0
      · exfalso
        simp only [decide_eq_true_eq] at hpval
        exact hpval h0
      · rw [← hps]
        exact h0
    have hsum1 : ((twoSplitAdjust splits strong keepTwo).map
        (fun p => p.2.amount.value)).sum =
        (sumAmounts ((twoSplitAdjust splits strong keepTwo).map
          (fun p => p.2.amount))).value := by
      rw [sumAmounts_value, List.map_map]
      rfl
    simp only [balanceSplits]
    rw [hAll]
    simp only [eq_self_iff_true, not_true, decide_False, Bool.and_false,
      Bool.false_eq_true, if_false]
    by_cases himb : (sumAmounts ((twoSplitAdjust splits strong keepTwo).map
        (fun p => p.2.amount))).value = 0
    · rw [if_pos himb, hsum1]
      exact himb
    · rw [if_neg himb]
      cases hfind : (twoSplitAdjust splits strong keepTwo).find? (fun p =>
          decide (p.2.account = none) && decide (strong ≠ some p.1)) with
      | some p =>
        simp only [hfind]
        rw [sum_filter_keep _ _ (fun r _ hq => by
          simp at hq
          exact hq.2)]
        have hpmem : (p.1, p.2) ∈ twoSplitAdjust splits strong keepTwo := by
          simpa using List.mem_of_find?_eq_some hfind
        rw [sum_map_update_sub _ _ _ hnd1 ⟨p.2, hpmem⟩, hsum1]
        omega
      | none =>
        simp only [hfind]
        rw [sum_filter_keep _ _ (fun r _ hq => by
          simp at hq
          exact hq.2)]
        simp only [List.map_append, List.sum_append, List.map_cons, List.map_nil,
          List.sum_cons, List.sum_nil, Amount.neg]
        rw [hsum1]
        omega
  · intro splits value hne
    rw [setAmountSplits, if_neg hne]
    simp

/-- C7 counterexample: after balance() on a two-split multi-currency
transaction (10 of currency 0 against -5 of currency 1), the splits are
left untouched by balance_currencies (the imbalances are not all on one
side), and their amounts sum to 5, not 0. -/
theorem transaction_balance_multi_currency_not_zero :
    balanceSplits [(0, ⟨some 1, ⟨10, 0⟩⟩), (1, ⟨some 2, ⟨-5, 1⟩⟩)] none false =
      [(0, ⟨some 1, ⟨10, 0⟩⟩), (1, ⟨some 2, ⟨-5, 1⟩⟩)] ∧
    (([(0, (⟨some 1, ⟨10, 0⟩⟩ : CSplit)), (1, (⟨some 2, ⟨-5, 1⟩⟩ : CSplit))] :
      List (Nat × CSplit)).map (fun p => p.2.amount.value)).sum = 5 ∧ (5 : Int) ≠ 0 := by
  decide

/-- Witness for C7 at a concrete single-currency transaction: balancing a
7 of currency 3 against a null unassigned split yields a zero sum. -/
theorem transaction_balance_zero_sum_witness :
    ((balanceSplits [(0, ⟨some 1, ⟨7, 3⟩⟩), (1, ⟨none, ⟨0, 0⟩⟩)] none false).map
      (fun p => p.2.amount.value)).sum = 0 :=
  transaction_balance_zero_sum.1
    [(0, ⟨some 1, ⟨7, 3⟩⟩), (1, ⟨none, ⟨0, 0⟩⟩)] none false 3 (by decide) (by decide)

/-- pyGet reads the element sitting post.length positions before the end. -/
theorem pyGet_append_mid (xs post : List UAction) (y : UAction) :
    pyGet (xs ++ y :: post) (-1 - (post.length : Int)) = some y := by
  unfold pyGet
  have hlen : ((xs ++ y :: post).length : Int) = xs.length + post.length + 1 := by
    simp
    omega
  rw [if_pos (by omega), if_neg (by omega)]
  have harg : (((xs ++ y :: post).length : Int) + (-1 - (post.length : Int))).toNat =
      xs.length := by
    omega
  rw [harg, List.get?_eq_getElem?, List.getElem?_append_right (Nat.le_refl xs.length)]
  simp

/-- List.set at the position of the middle element replaces it. -/
theorem set_append_mid {α : Type} (xs post : List α) (y z : α) :
    (xs ++ y :: post).set xs.length z = xs ++ z :: post := by
  induction xs with
  | nil => rfl
  | cons x xs ih => simp [List.set, ih]

/-- pySet writes the element sitting post.length positions before the end. -/
theorem pySet_append_mid (xs post : List UAction) (y z : UAction) :
    pySet (xs ++ y :: post) (-1 - (post.length : Int)) z = xs ++ z :: post := by
  unfold pySet
  have hlen : ((xs ++ y :: post).length : Int) = xs.length + post.length + 1 := by
    simp
    omega
  rw [if_pos (by omega)]
  have harg : (((xs ++ y :: post).length : Int) + (-1 - (post.length : Int))).toNat =
      xs.length := by
    omega
  rw [harg, set_append_mid]

/-- C5: record discards every action strictly after the cursor, appends
the new action and moves the cursor to the end of the list; afterwards
can_redo is false, can_undo is true and the action the next undo would
fetch is exactly the recorded one. -/
theorem undoer_record_truncates (u : Undoer) (a : UAction)
    (_hlo : -(u.actions.length : Int) - 1 ≤ u.index) (hhi : u.index ≤ -1) :
    (u.record a).actions =
      u.actions.take ((u.actions.length : Int) + u.index + 1).toNat ++ [a] ∧
    (u.record a).index = -1 ∧
    (u.record a).canRedo = false ∧
    (u.record a).canUndo = true ∧
    pyGet (u.record a).actions (u.record a).index = some a := by
  refine ⟨?_, rfl, ?_, ?_, ?_⟩
  · show (if u.index < -1 then
        u.actions.take ((u.actions.length : Int) + u.index + 1).toNat
      else u.actions) ++ [a] = _
    by_cases h : u.index < -1
    · rw [if_pos h]
    · rw [if_neg h]
      have harg : ((u.actions.length : Int) + u.index + 1).toNat = u.actions.length := by
        omega
      rw [harg, List.take_length]
  · simp [Undoer.canRedo, Undoer.record]
  · simp [Undoer.canUndo, Undoer.record]
  · show pyGet (_ ++ [a]) (-1) = some a
    have := pyGet_append_mid (if u.index < -1 then
        u.actions.take ((u.actions.length : Int) + u.index + 1).toNat
      else u.actions) [] a
    simpa using this

/-- Witness for C5 at a concrete fully-undone Undoer (one recorded
action, already undone, cursor at -2 = -length - 1): recording discards
the whole redo history. -/
theorem undoer_record_truncates_witness :
    (-(recW2.actions.length : Int) - 1 ≤ recW2.index ∧ recW2.index ≤ -1) ∧
    ((recW2.record (blankAction 3)).actions =
        recW2.actions.take ((recW2.actions.length : Int) + recW2.index + 1).toNat ++
          [blankAction 3] ∧
      (recW2.record (blankAction 3)).index = -1 ∧
      (recW2.record (blankAction 3)).canRedo = false ∧
      (recW2.record (blankAction 3)).canUndo = true ∧
      pyGet (recW2.record (blankAction 3)).actions
        (recW2.record (blankAction 3)).index = some (blankAction 3)) :=
  ⟨⟨by decide, by decide⟩,
    undoer_record_truncates recW2 (blankAction 3) (by decide) (by decide)⟩

/-- With the cursor inside the list, pyGet finds an element. -/
theorem pyGet_isSome (l : List UAction) (i : Int) (h1 : i ≤ -1)
    (h2 : -(l.length : Int) ≤ i) : ∃ a, pyGet l i = some a := by
  unfold pyGet
  rw [if_pos (by omega), if_neg (by omega)]
  have hlt : ((l.length : Int) + i).toNat < l.length := by omega
  exact ⟨l.get ⟨_, hlt⟩, List.get?_eq_get hlt⟩

/-- C9: undo and redo assert their guards.  Called with the guard false
they fail with the assertion error instead of silently returning; with the
guard true (and the cursor inside or one below the action list, as every
reachable cursor is) they succeed. -/
theorem undo_redo_guard (u : Undoer)
    (hhi : u.index ≤ -1) (hlo : -(u.actions.length : Int) - 1 ≤ u.index) :
    (u.canUndo = false → u.undo = .error .assertionError) ∧
    (u.canUndo = true → ∃ u2, u.undo = .ok u2) ∧
    (u.canRedo = false → u.redo = .error .assertionError) ∧
    (u.canRedo = true → ∃ u2, u.redo = .ok u2) := by
  refine ⟨?_, ?_, ?_, ?_⟩
  · intro h
    unfold Undoer.undo
    rw [if_pos (by simp [h])]
  · intro h
    have hcan : -u.index ≤ (u.actions.length : Int) := by
      have := of_decide_eq_true h
      exact this
    obtain ⟨a, ha⟩ := pyGet_isSome u.actions u.index hhi (by omega)
    unfold Undoer.undo
    rw [if_neg (by simp [h]), ha]
    exact ⟨_, rfl⟩
  · intro h
    unfold Undoer.redo
    rw [if_pos (by simp [h])]
  · intro h
    have hcan : u.index < -1 := by
      have := of_decide_eq_true h
      exact this
    obtain ⟨a, ha⟩ := pyGet_isSome u.actions (u.index + 1) (by omega) (by omega)
    unfold Undoer.redo
    rw [if_neg (by simp [h]), ha]
    exact ⟨_, rfl⟩

/-- Witness for C9 at a concrete Undoer where both guards are true: both
operations succeed, the vacuous failure branches included. -/
theorem undo_redo_guard_witness :
    (recW.index ≤ -1 ∧ -(recW.actions.length : Int) - 1 ≤ recW.index) ∧
    ((recW.canUndo = false → recW.undo = .error .assertionError) ∧
     (recW.canUndo = true → ∃ u2, recW.undo = .ok u2) ∧
     (recW.canRedo = false → recW.redo = .error .assertionError) ∧
     (recW.canRedo = true → ∃ u2, recW.redo = .ok u2)) :=
  ⟨⟨by decide, by decide⟩, undo_redo_guard recW (by decide) (by decide)⟩

/-- C6: the claimed can_redo invariant fails in a reachable state.  After
record, record, undo, clear — a File-New after an undo — the action list
is empty, yet can_redo still answers true (clear keeps the cursor at -2),
and the redo it licenses fails with an index error rather than the
assertion; can_undo is false, so the action "behind" can_redo does not
exist. -/
theorem undoer_clear_canredo_bug :
    clearScenario.map (fun u => (u.actions, u.canRedo, u.canUndo, u.redo)) =
      Except.ok ([], true, false, Except.error UndoErr.indexError) := by
  decide

/-- Writing a present key then reading it gives the written value. -/
theorem alookup_setStore_self {α : Type} (s : List (Nat × α)) (i : Nat) (v : α)
    (h : (alookup s i).isSome = true) : alookup (setStore s i v) i = some v := by
  induction s with
  | nil => simp [alookup] at h
  | cons p rest ih =>
    obtain ⟨k, w⟩ := p
    by_cases hk : k = i
    · subst hk
      simp [setStore, alookup]
    · simp only [alookup, if_neg hk] at h
      simp only [setStore, if_neg hk, alookup, if_neg hk]
      exact ih h

/-- Writing one key leaves every other key's value alone. -/
theorem alookup_setStore_ne {α : Type} (s : List (Nat × α)) (i j : Nat) (v : α)
    (h : j ≠ i) : alookup (setStore s i v) j = alookup s j := by
  induction s with
  | nil => rfl
  | cons p rest ih =>
    obtain ⟨k, w⟩ := p
    by_cases hk : k = i
    · subst hk
      have hkj : ¬ (k = j) := fun hc => h hc.symm
      simp [setStore, alookup, hkj]
    · simp only [setStore, if_neg hk, alookup]
      by_cases hkj : k = j
      · rw [if_pos hkj, if_pos hkj]
      · rw [if_neg hkj, if_neg hkj]
        exact ih

/-- Writing a key twice keeps only the second write. -/
theorem setStore_setStore_self {α : Type} (s : List (Nat × α)) (i : Nat) (v w : α) :
    setStore (setStore s i v) i w = setStore s i w := by
  induction s with
  | nil => rfl
  | cons p rest ih =>
    obtain ⟨k, x⟩ := p
    by_cases hk : k = i
    · subst hk
      simp [setStore]
    · simp [setStore, hk, ih]

/-- Writes to distinct keys commute. -/
theorem setStore_comm {α : Type} (s : List (Nat × α)) (i j : Nat) (v w : α)
    (h : i ≠ j) : setStore (setStore s i v) j w = setStore (setStore s j w) i v := by
  induction s with
  | nil => rfl
  | cons p rest ih =>
    obtain ⟨k, x⟩ := p
    by_cases hki : k = i
    · subst hki
      simp [setStore, h, fun hc : k = j => h hc]
    · by_cases hkj : k = j
      · subst hkj
        simp [setStore, hki, fun hc : k = i => hki hc]
      · simp [setStore, hki, hkj, ih]

/-- Writing back the value a key already holds changes nothing. -/
theorem setStore_lookup_self {α : Type} (s : List (Nat × α)) (i : Nat) (v : α)
    (h : alookup s i = some v) : setStore s i v = s := by
  induction s with
  | nil => rfl
  | cons p rest ih =>
    obtain ⟨k, w⟩ := p
    by_cases hk : k = i
    · subst hk
      simp only [alookup] at h
      simp at h
      simp [setStore, h]
    · simp only [alookup, if_neg hk] at h
      simp [setStore, hk, ih h]

/-- A write changes no key's presence. -/
theorem alookup_setStore_isSome {α : Type} (s : List (Nat × α)) (i j : Nat) (v : α) :
    (alookup (setStore s i v) j).isSome = (alookup s j).isSome := by
  by_cases h : j = i
  · subst h
    induction s with
    | nil => rfl
    | cons p rest ih =>
      obtain ⟨k, w⟩ := p
      by_cases hk : k = j
      · subst hk
        simp [setStore, alookup]
      · simp [setStore, hk, alookup, ih]
  · rw [alookup_setStore_ne s i j v h]

/-- The swap keeps the changed map's keys, in order. -/
theorem doChanges_chg_keys {α : Type} (chg store : List (Nat × α)) :
    (doChanges chg store).1.map (·.1) = chg.map (·.1) := by
  induction chg generalizing store with
  | nil => rfl
  | cons p rest ih =>
    obtain ⟨i, bk⟩ := p
    simp [doChanges, ih]

/-- The swap leaves keys outside the changed map untouched in the store. -/
theorem doChanges_store_ne {α : Type} (chg store : List (Nat × α)) (j : Nat)
    (h : ∀ p ∈ chg, p.1 ≠ j) :
    alookup (doChanges chg store).2 j = alookup store j := by
  induction chg generalizing store with
  | nil => rfl
  | cons p rest ih =>
    obtain ⟨i, bk⟩ := p
    have hi : i ≠ j := h (i, bk) (List.mem_cons_self _ _)
    have hrest : ∀ p ∈ rest, p.1 ≠ j := fun p hp => h p (List.mem_cons_of_mem _ hp)
    simp only [doChanges]
    rw [ih _ hrest, alookup_setStore_ne store i j bk (fun hc => hi hc.symm)]

/-- Every output pair of the swap is the input key with the value the
store held for it. -/
theorem doChanges_chg_mem {α : Type} (chg store : List (Nat × α))
    (hnd : (chg.map (·.1)).Nodup) :
    ∀ q ∈ (doChanges chg store).1, ∃ p ∈ chg, q = (p.1, (alookup store p.1).getD p.2) := by
  induction chg generalizing store with
  | nil => simp [doChanges]
  | cons p rest ih =>
    obtain ⟨i, bk⟩ := p
    simp only [List.map_cons, List.nodup_cons] at hnd
    intro q hq
    simp only [doChanges, List.mem_cons] at hq
    rcases hq with hq | hq
    · exact ⟨(i, bk), List.mem_cons_self _ _, hq⟩
    · obtain ⟨p, hp, hpe⟩ := ih (setStore store i bk) hnd.2 q hq
      refine ⟨p, List.mem_cons_of_mem _ hp, ?_⟩
      rw [hpe, alookup_setStore_ne store i p.1 bk]
      intro hc
      exact hnd.1 (List.mem_map.mpr ⟨p, hp, hc⟩)

/-- After the swap, a changed key's store entry holds the action's image. -/
theorem doChanges_store_lookup_mem {α : Type} (chg store : List (Nat × α))
    (i : Nat) (v : α) (hnd : (chg.map (·.1)).Nodup) (hp : (i, v) ∈ chg)
    (hpres : (alookup store i).isSome = true) :
    alookup (doChanges chg store).2 i = some v := by
  induction chg generalizing store with
  | nil => cases hp
  | cons p rest ih =>
    obtain ⟨k, bk⟩ := p
    simp only [List.map_cons, List.nodup_cons] at hnd
    rcases List.mem_cons.mp hp with hq | hq
    · simp only [Prod.mk.injEq] at hq
      obtain ⟨h1, h2⟩ := hq
      subst h1
      subst h2
      have hkeys : ∀ p ∈ rest, p.1 ≠ i := by
        intro p hp hc
        exact hnd.1 (List.mem_map.mpr ⟨p, hp, hc⟩)
      simp only [doChanges]
      rw [doChanges_store_ne rest _ i hkeys, alookup_setStore_self store i v hpres]
    · have hki : k ≠ i := by
        intro hc
        apply hnd.1
        rw [hc]
        exact List.mem_map.mpr ⟨(i, v), hq, rfl⟩
      simp only [doChanges]
      rw [ih (setStore store k bk) hnd.2 hq]
      rw [alookup_setStore_isSome]
      exact hpres

/-- Writing a key outside the changed map commutes with the swap. -/
theorem doChanges_setStore_comm {α : Type} (chg store : List (Nat × α))
    (i : Nat) (v : α) (h : ∀ p ∈ chg, p.1 ≠ i) :
    doChanges chg (setStore store i v) =
      ((doChanges chg store).1, setStore (doChanges chg store).2 i v) := by
  induction chg generalizing store with
  | nil => simp [doChanges]
  | cons p rest ih =>
    obtain ⟨j, bk⟩ := p
    have hj : j ≠ i := h (j, bk) (List.mem_cons_self _ _)
    have hrest : ∀ p ∈ rest, p.1 ≠ i := fun p hp => h p (List.mem_cons_of_mem _ hp)
    simp only [doChanges]
    rw [alookup_setStore_ne store i j v hj]
    rw [setStore_comm store i j v bk (fun hc => hj hc.symm), ih _ hrest]

/-- The changed-entity swap is its own inverse: swapping the output map
against the output store restores both (undo.py, lines 18-22 and 139-154;
the key fact behind undo/redo symmetry). -/
theorem doChanges_roundtrip {α : Type} (chg store : List (Nat × α))
    (hnd : (chg.map (·.1)).Nodup)
    (hpres : ∀ p ∈ chg, (alookup store p.1).isSome = true) :
    doChanges (doChanges chg store).1 (doChanges chg store).2 = (chg, store) := by
  induction chg generalizing store with
  | nil => simp [doChanges]
  | cons p rest ih =>
    obtain ⟨i, bk⟩ := p
    simp only [List.map_cons, List.nodup_cons] at hnd
    have hpi : (alookup store i).isSome = true := hpres (i, bk) (List.mem_cons_self _ _)
    obtain ⟨x, hx⟩ := Option.isSome_iff_exists.mp hpi
    have hpr : ∀ p ∈ rest, (alookup (setStore store i bk) p.1).isSome = true := by
      intro p hp
      rw [alookup_setStore_isSome]
      exact hpres p (List.mem_cons_of_mem _ hp)
    have hrkeys : ∀ p ∈ rest, p.1 ≠ i := by
      intro p hp hc
      exact hnd.1 (List.mem_map.mpr ⟨p, hp, hc⟩)
    have hr1keys : ∀ q ∈ (doChanges rest (setStore store i bk)).1, q.1 ≠ i := by
      intro q hq hc
      apply hnd.1
      have hm : q.1 ∈ (doChanges rest (setStore store i bk)).1.map (·.1) :=
        List.mem_map.mpr ⟨q, hq, rfl⟩
      rw [doChanges_chg_keys] at hm
      rw [hc] at hm
      exact hm
    have hlook : alookup (doChanges rest (setStore store i bk)).2 i = some bk := by
      rw [doChanges_store_ne _ _ i hrkeys, alookup_setStore_self store i bk hpi]
    have hcur : (alookup store i).getD bk = x := by rw [hx]; rfl
    simp only [doChanges]
    rw [hlook]
    rw [doChanges_setStore_comm _ _ i _ hr1keys]
    rw [ih (setStore store i bk) hnd.2 hpr]
    simp only [Option.getD_some]
    rw [setStore_setStore_self, hcur, setStore_lookup_self store i x hx]


/-- Membership in the referencing-transactions set. -/
theorem referencers_mem (tl : Finset Nat) (store : List (Nat × TxnData)) (b t : Nat) :
    t ∈ referencers tl store b ↔
      t ∈ tl ∧ b ∈ txnRefs ((alookup store t).getD default) := by
  unfold referencers
  exact Finset.mem_filter

/-- Membership in the referenced-accounts set of a transaction set. -/
theorem refsOfSetS_mem (store : List (Nat × TxnData)) (ts : Finset Nat) (b : Nat) :
    b ∈ refsOfSetS store ts ↔
      ∃ i ∈ ts, b ∈ txnRefs ((alookup store i).getD default) := by
  unfold refsOfSetS
  exact Finset.mem_biUnion

/-- refsOfSetS reads only the store entries of its set. -/
theorem refsOfSetS_congr (s1 s2 : List (Nat × TxnData)) (ts : Finset Nat)
    (h : ∀ i ∈ ts, alookup s1 i = alookup s2 i) :
    refsOfSetS s1 ts = refsOfSetS s2 ts := by
  unfold refsOfSetS
  apply Finset.biUnion_congr rfl
  intro i hi
  rw [h i hi]

/-- referencers reads only the store entries of the live set. -/
theorem referencers_congr (tl : Finset Nat) (s1 s2 : List (Nat × TxnData)) (b : Nat)
    (h : ∀ t ∈ tl, alookup s1 t = alookup s2 t) :
    referencers tl s1 b = referencers tl s2 b := by
  unfold referencers
  apply Finset.filter_congr
  intro t ht
  rw [h t ht]

/-- Adding then removing (or the reverse) a kind's diff sets restores the
live set, given the diff was consistent with it. -/
theorem live_roundtrip (L A D : Finset Nat) (hA : A ∩ L = ∅) (hD : D ⊆ L) :
    ((L ∪ A) \ D ∪ D) \ A = L := by
  ext x
  have hA' : x ∈ A → x ∉ L := fun hxA hxL =>
    Finset.eq_empty_iff_forall_not_mem.mp hA x (Finset.mem_inter.mpr ⟨hxA, hxL⟩)
  have hD' : x ∈ D → x ∈ L := fun hx => hD hx
  simp only [Finset.mem_sdiff, Finset.mem_union]
  tauto

/-- The changed-transactions loop swaps exactly like the plain swap. -/
theorem doChangesTxns_chg (tl : Finset Nat) (C store : List (Nat × TxnData))
    (acc : Table AccountData) :
    (doChangesTxns tl C store acc).1 = (doChanges C store).1 := by
  induction C generalizing store acc with
  | nil => rfl
  | cons p rest ih =>
    obtain ⟨i, bk⟩ := p
    simp only [doChangesTxns, doChanges]
    rw [ih]

/-- The changed-transactions loop updates the store exactly like the
plain swap. -/
theorem doChangesTxns_store (tl : Finset Nat) (C store : List (Nat × TxnData))
    (acc : Table AccountData) :
    (doChangesTxns tl C store acc).2.1 = (doChanges C store).2 := by
  induction C generalizing store acc with
  | nil => rfl
  | cons p rest ih =>
    obtain ⟨i, bk⟩ := p
    simp only [doChangesTxns, doChanges]
    rw [ih]

/-- The changed-transactions loop never rewrites account contents. -/
theorem doChangesTxns_accStore (tl : Finset Nat) (C store : List (Nat × TxnData))
    (acc : Table AccountData) :
    (doChangesTxns tl C store acc).2.2.store = acc.store := by
  induction C generalizing store acc with
  | nil => rfl
  | cons p rest ih =>
    obtain ⟨i, bk⟩ := p
    simp only [doChangesTxns]
    rw [ih]

/-- An account never written by an incoming image stays out of the
account list through the changed-transactions loop. -/
theorem doChangesTxns_out (tl : Finset Nat) (C : List (Nat × TxnData)) :
    ∀ (store : List (Nat × TxnData)) (acc : Table AccountData) (b : Nat),
    (∀ p ∈ C, b ∉ txnRefs p.2) → b ∉ acc.live →
    b ∉ (doChangesTxns tl C store acc).2.2.live := by
  induction C with
  | nil => intro store acc b _ hout; exact hout
  | cons p rest ih =>
    intro store acc b hw hout
    obtain ⟨i, bk⟩ := p
    simp only [doChangesTxns]
    apply ih
    · intro q hq
      exact hw q (List.mem_cons_of_mem _ hq)
    · intro hmem
      rcases Finset.mem_union.mp hmem with h1 | h2
      · exact hout (Finset.mem_sdiff.mp h1).1
      · exact hw (i, bk) (List.mem_cons_self _ _) h2

/-- An account mentioned by no current content of the changed map is
never collected by the loop. -/
theorem doChangesTxns_in_of_nocur (tl : Finset Nat) (C : List (Nat × TxnData)) :
    ∀ (store : List (Nat × TxnData)) (acc : Table AccountData) (b : Nat),
    (C.map (·.1)).Nodup →
    (∀ p ∈ C, b ∉ txnRefs ((alookup store p.1).getD p.2)) → b ∈ acc.live →
    b ∈ (doChangesTxns tl C store acc).2.2.live := by
  induction C with
  | nil => intro store acc b _ _ hin; exact hin
  | cons p rest ih =>
    intro store acc b hnd hnc hin
    obtain ⟨i, bk⟩ := p
    simp only [List.map_cons, List.nodup_cons] at hnd
    simp only [doChangesTxns]
    apply ih _ _ b hnd.2
    · intro q hq
      rw [alookup_setStore_ne store i q.1 bk
        (fun hc => hnd.1 (List.mem_map.mpr ⟨q, hq, hc⟩))]
      exact hnc q (List.mem_cons_of_mem _ hq)
    · apply Finset.mem_union_left
      rw [Finset.mem_sdiff]
      refine ⟨hin, ?_⟩
      intro hgc
      exact hnc (i, bk) (List.mem_cons_self _ _) (Finset.mem_filter.mp hgc).1

/-- A live account that is not auto-created survives the loop. -/
theorem doChangesTxns_in_of_noac (tl : Finset Nat) (C : List (Nat × TxnData)) :
    ∀ (store : List (Nat × TxnData)) (acc : Table AccountData) (b : Nat),
    acFlag acc.store b = false → b ∈ acc.live →
    b ∈ (doChangesTxns tl C store acc).2.2.live := by
  induction C with
  | nil => intro store acc b _ hin; exact hin
  | cons p rest ih =>
    intro store acc b hac hin
    obtain ⟨i, bk⟩ := p
    simp only [doChangesTxns]
    refine ih _ _ b hac ?_
    apply Finset.mem_union_left
    rw [Finset.mem_sdiff]
    refine ⟨hin, ?_⟩
    intro hgc
    have := (Finset.mem_filter.mp hgc).2.1
    rw [hac] at this
    cases this

/-- A live referencing transaction outside the changed map shields an
account from collection throughout the loop. -/
theorem doChangesTxns_in_of_witness (tl : Finset Nat) (C : List (Nat × TxnData)) :
    ∀ (store : List (Nat × TxnData)) (acc : Table AccountData) (b t0 : Nat),
    t0 ∈ tl → (∀ p ∈ C, p.1 ≠ t0) →
    b ∈ txnRefs ((alookup store t0).getD default) → b ∈ acc.live →
    b ∈ (doChangesTxns tl C store acc).2.2.live := by
  induction C with
  | nil => intro store acc b t0 _ _ _ hin; exact hin
  | cons p rest ih =>
    intro store acc b t0 ht0 hne hb hin
    obtain ⟨i, bk⟩ := p
    have hit0 : i ≠ t0 := hne (i, bk) (List.mem_cons_self _ _)
    simp only [doChangesTxns]
    apply ih _ _ b t0 ht0
    · intro q hq
      exact hne q (List.mem_cons_of_mem _ hq)
    · rw [alookup_setStore_ne store i t0 bk (fun hc => hit0 hc.symm)]
      exact hb
    · apply Finset.mem_union_left
      rw [Finset.mem_sdiff]
      refine ⟨hin, ?_⟩
      intro hgc
      have heq := (Finset.mem_filter.mp hgc).2.2
      have ht : t0 ∈ referencers tl store b :=
        (referencers_mem tl store b t0).mpr ⟨ht0, hb⟩
      rw [heq] at ht
      exact hit0 (Finset.mem_singleton.mp ht).symm

/-- getD does not depend on the default when the option is present. -/
theorem getD_eq_of_isSome {α : Type} (o : Option α) (h : o.isSome = true)
    (d1 d2 : α) : o.getD d1 = o.getD d2 := by
  cases o with
  | none => cases h
  | some v => rfl

/-- An account written by the incoming image of a live changed
transaction ends up in the account list and stays there. -/
theorem doChangesTxns_in_of_write (tl : Finset Nat) (C : List (Nat × TxnData)) :
    ∀ (store : List (Nat × TxnData)) (acc : Table AccountData) (b : Nat)
      (p : Nat × TxnData),
    (C.map (·.1)).Nodup → (∀ q ∈ C, (alookup store q.1).isSome = true) →
    p ∈ C → b ∈ txnRefs p.2 → p.1 ∈ tl →
    b ∈ (doChangesTxns tl C store acc).2.2.live := by
  induction C with
  | nil => intro store acc b p _ _ hp; cases hp
  | cons q rest ih =>
    intro store acc b p hnd hpres hp hb hlive
    obtain ⟨i, bk⟩ := q
    simp only [List.map_cons, List.nodup_cons] at hnd
    simp only [doChangesTxns]
    rcases List.mem_cons.mp hp with hq | hq
    · have hbk : b ∈ txnRefs bk := by
        have h2 : p.2 = bk := by rw [hq]
        rw [← h2]
        exact hb
      have hcont : b ∈ txnRefs ((alookup (setStore store i bk) i).getD default) := by
        rw [alookup_setStore_self store i bk
          (hpres (i, bk) (List.mem_cons_self _ _))]
        exact hbk
      have hil : i ∈ tl := by
        have h1 : p.1 = i := by rw [hq]
        rw [← h1]
        exact hlive
      apply doChangesTxns_in_of_witness tl rest _ _ b i hil
      · intro r hr hc
        exact hnd.1 (List.mem_map.mpr ⟨r, hr, hc⟩)
      · exact hcont
      · exact Finset.mem_union_right _ hbk
    · apply ih _ _ b p hnd.2 _ hq hb hlive
      intro r hr
      rw [alookup_setStore_isSome]
      exact hpres r (List.mem_cons_of_mem _ hr)

/-- A fresh auto-created account mentioned by a current content of the
changed map but by no incoming image and by no live transaction outside
the map is collected: swapping away its last referencing content
garbage-collects it, and nothing re-creates it. -/
theorem doChangesTxns_out_of_kill (tl : Finset Nat) (C : List (Nat × TxnData)) :
    ∀ (store : List (Nat × TxnData)) (acc : Table AccountData) (b : Nat),
    (C.map (·.1)).Nodup → (∀ q ∈ C, (alookup store q.1).isSome = true) →
    (∀ q ∈ C, q.1 ∈ tl) → acFlag acc.store b = true →
    (∀ q ∈ C, b ∉ txnRefs q.2) →
    (∀ t ∈ tl, (∀ q ∈ C, q.1 ≠ t) → b ∉ txnRefs ((alookup store t).getD default)) →
    (∃ q ∈ C, b ∈ txnRefs ((alookup store q.1).getD q.2)) →
    b ∉ (doChangesTxns tl C store acc).2.2.live := by
  induction C with
  | nil =>
    intro store acc b _ _ _ _ _ _ htrig
    obtain ⟨q, hq, -⟩ := htrig
    cases hq
  | cons q0 rest ih =>
    intro store acc b hnd hpres hkeys hac hw hnc htrig
    obtain ⟨i, bk⟩ := q0
    simp only [List.map_cons, List.nodup_cons] at hnd
    have hrest_ne : ∀ r ∈ rest, r.1 ≠ i := by
      intro r hr hc
      exact hnd.1 (List.mem_map.mpr ⟨r, hr, hc⟩)
    have hpres2 : ∀ r ∈ rest, (alookup (setStore store i bk) r.1).isSome = true := by
      intro r hr
      rw [alookup_setStore_isSome]
      exact hpres r (List.mem_cons_of_mem _ hr)
    have hnc2 : ∀ t ∈ tl, (∀ r ∈ rest, r.1 ≠ t) →
        b ∉ txnRefs ((alookup (setStore store i bk) t).getD default) := by
      intro t ht hne
      by_cases hti : t = i
      · subst hti
        rw [alookup_setStore_self store t bk (hpres (t, bk) (List.mem_cons_self _ _))]
        exact hw (t, bk) (List.mem_cons_self _ _)
      · rw [alookup_setStore_ne store i t bk hti]
        refine hnc t ht ?_
        intro r hr
        rcases List.mem_cons.mp hr with he | he
        · rw [he]
          intro hc
          exact hti hc.symm
        · exact hne r he
    simp only [doChangesTxns]
    by_cases hcase : ∃ r ∈ rest, b ∈ txnRefs ((alookup store r.1).getD r.2)
    · obtain ⟨r, hr, hrb⟩ := hcase
      refine ih _ _ b hnd.2 hpres2 ?_ hac ?_ hnc2 ?_
      · intro r2 hr2
        exact hkeys r2 (List.mem_cons_of_mem _ hr2)
      · intro r2 hr2
        exact hw r2 (List.mem_cons_of_mem _ hr2)
      · refine ⟨r, hr, ?_⟩
        rw [alookup_setStore_ne store i r.1 bk (hrest_ne r hr)]
        exact hrb
    · have hbcur : b ∈ txnRefs ((alookup store i).getD bk) := by
        obtain ⟨q, hq, hqb⟩ := htrig
        rcases List.mem_cons.mp hq with he | he
        · have h1 : q.1 = i := by rw [he]
          have h2 : q.2 = bk := by rw [he]
          rw [h1, h2] at hqb
          exact hqb
        · exact absurd ⟨q, he, hqb⟩ hcase
      have hbdef : b ∈ txnRefs ((alookup store i).getD default) := by
        rw [getD_eq_of_isSome _ (hpres (i, bk) (List.mem_cons_self _ _)) default bk]
        exact hbcur
      have hrefeq : referencers tl store b = {i} := by
        ext t
        rw [referencers_mem, Finset.mem_singleton]
        constructor
        · rintro ⟨ht, hbt⟩
          by_contra hti
          refine hnc t ht ?_ hbt
          intro r hr
          rcases List.mem_cons.mp hr with he | he
          · rw [he]
            intro hc
            exact hti hc.symm
          · intro hc
            apply hcase
            refine ⟨r, he, ?_⟩
            rw [getD_eq_of_isSome _ (hpres r (List.mem_cons_of_mem _ he)) r.2 default]
            rw [hc]
            exact hbt
        · intro he
          subst he
          exact ⟨hkeys (t, bk) (List.mem_cons_self _ _), hbdef⟩
      have hgc : b ∈ (txnRefs ((alookup store i).getD bk)).filter
          (fun x => acFlag acc.store x = true ∧ referencers tl store x = {i}) :=
        Finset.mem_filter.mpr ⟨hbcur, hac, hrefeq⟩
      apply doChangesTxns_out
      · intro r2 hr2
        exact hw r2 (List.mem_cons_of_mem _ hr2)
      · intro hmem
        rcases Finset.mem_union.mp hmem with h1 | h2
        · exact (Finset.mem_sdiff.mp h1).2 hgc
        · exact hw (i, bk) (List.mem_cons_self _ _) h2

/-- The swap preserves presence of every key. -/
theorem doChanges_store_isSome {α : Type} (chg : List (Nat × α)) :
    ∀ (store : List (Nat × α)) (j : Nat),
    (alookup (doChanges chg store).2 j).isSome = (alookup store j).isSome := by
  induction chg with
  | nil => intro store j; rfl
  | cons p rest ih =>
    intro store j
    obtain ⟨i, bk⟩ := p
    simp only [doChanges]
    rw [ih, alookup_setStore_isSome]

/-- Every input pair of the swap appears in the output under its key,
carrying the value the store held. -/
theorem doChanges_chg_mem_rev {α : Type} (chg : List (Nat × α)) :
    ∀ (store : List (Nat × α)) (p : Nat × α), (chg.map (·.1)).Nodup → p ∈ chg →
    (p.1, (alookup store p.1).getD p.2) ∈ (doChanges chg store).1 := by
  induction chg with
  | nil => intro store p _ hp; cases hp
  | cons q rest ih =>
    intro store p hnd hp
    obtain ⟨i, bk⟩ := q
    simp only [List.map_cons, List.nodup_cons] at hnd
    simp only [doChanges]
    rcases List.mem_cons.mp hp with he | he
    · have h1 : p.1 = i := by rw [he]
      have h2 : p.2 = bk := by rw [he]
      rw [h1, h2]
      exact List.mem_cons_self _ _
    · apply List.mem_cons_of_mem
      have hne : p.1 ≠ i := by
        intro hc
        exact hnd.1 (List.mem_map.mpr ⟨p, he, hc⟩)
      rw [show alookup store p.1 = alookup (setStore store i bk) p.1 from
        (alookup_setStore_ne store i p.1 bk hne).symm]
      exact ih (setStore store i bk) p hnd.2 he

/-- Membership in the incoming-image references of a changed map. -/
theorem chgNewRefs_mem (chg : List (Nat × TxnData)) (p : Nat × TxnData) (b : Nat)
    (hp : p ∈ chg) (hb : b ∈ txnRefs p.2) : b ∈ chgNewRefs chg := by
  induction chg with
  | nil => cases hp
  | cons q rest ih =>
    rcases List.mem_cons.mp hp with he | he
    · apply Finset.mem_union_left
      rw [← he]
      exact hb
    · exact Finset.mem_union_right _ (ih he)

/-- Account changes that keep the autocreated flag leave every flag in
place after the swap. -/
theorem acFlag_doChanges (chg s : List (Nat × AccountData))
    (hnd : (chg.map (·.1)).Nodup)
    (hpres : ∀ p ∈ chg, (alookup s p.1).isSome = true)
    (hfl : ∀ p ∈ chg, p.2.autocreated = acFlag s p.1) (b : Nat) :
    acFlag (doChanges chg s).2 b = acFlag s b := by
  by_cases hb : ∃ p ∈ chg, p.1 = b
  · obtain ⟨p, hp, he⟩ := hb
    subst he
    have hl := doChanges_store_lookup_mem chg s p.1 p.2 hnd hp (hpres p hp)
    unfold acFlag
    rw [hl]
    simp only [Option.getD_some]
    exact hfl p hp
  · unfold acFlag
    rw [doChanges_store_ne chg s b (fun p hp hc => hb ⟨p, hp, hc⟩)]

/-- Membership in the delete-loop collection set. -/
theorem gcDeletes_mem (accStore : List (Nat × AccountData)) (tl : Finset Nat)
    (store : List (Nat × TxnData)) (ts : Finset Nat) (b : Nat) :
    b ∈ gcDeletes accStore tl store ts ↔
      b ∈ refsOfSetS store ts ∧
        (acFlag accStore b = true ∧ referencers tl store b ⊆ ts) := by
  unfold gcDeletes
  exact Finset.mem_filter

/-- The account live set returns to its pre-action value when the
recorded action is replayed forwards and then undone: the auto-created
accounts the replay creates are collected again, the collected ones are
re-created, and everything else is shielded by a surviving referencing
transaction.  The sets and stores are those of the pre-action graph; s1
is the account store during the forward run (flag-equivalent to the
restored one). -/
theorem accounts_live_roundtrip
    (L A D : Finset Nat) (s1 S_A : List (Nat × AccountData))
    (Tl TA TD : Finset Nat) (S_T C : List (Nat × TxnData))
    (hA : A ∩ L = ∅) (hD : D ⊆ L) (htA : TA ∩ Tl = ∅) (htD : TD ⊆ Tl)
    (htxnN : (C.map (·.1)).Nodup)
    (htxnP : ∀ p ∈ C, (alookup S_T p.1).isSome = true)
    (hkeys : ∀ p ∈ C, p.1 ∈ Tl ∧ p.1 ∉ TA)
    (hfresh : ∀ b ∈ (refsOfSetS S_T TA ∪ chgNewRefs C) \ (L ∪ A),
      acFlag S_A b = true ∧ referencers Tl S_T b = ∅)
    (hchgD : ∀ p ∈ C, txnRefs p.2 ∩ D = ∅)
    (hdead : ∀ p ∈ C, p.1 ∈ TD → txnRefs p.2 ⊆ L)
    (hTAD : refsOfSetS S_T TA ∩ D = ∅)
    (hclose : ∀ t ∈ Tl, txnRefs ((alookup S_T t).getD default) ⊆ L)
    (hanchor : ∀ b ∈ L, acFlag S_A b = true → referencers Tl S_T b ≠ ∅)
    (hflag1 : ∀ b, acFlag s1 b = acFlag S_A b) :
    (doChangesTxns Tl (doChanges C S_T).1 (doChanges C S_T).2
      (⟨(((doChangesTxns ((Tl ∪ TA) \ TD) C S_T
          (⟨((L ∪ A) \ D ∪ refsOfSetS S_T TA) \
              gcDeletes s1 (Tl ∪ TA) S_T TD, s1⟩ : Table AccountData)).2.2.live ∪ D) \ A ∪
          refsOfSetS (doChanges C S_T).2 TD) \
          gcDeletes S_A (Tl ∪ TA) (doChanges C S_T).2 TA,
        S_A⟩ : Table AccountData)).2.2.live = L := by
  have hndC : ((doChanges C S_T).1.map (·.1)).Nodup := by
    rw [doChanges_chg_keys]
    exact htxnN
  have hparts : ∀ q ∈ (doChanges C S_T).1,
      ∃ p ∈ C, q = (p.1, (alookup S_T p.1).getD p.2) :=
    doChanges_chg_mem C S_T htxnN
  have hpresC : ∀ q ∈ (doChanges C S_T).1,
      (alookup (doChanges C S_T).2 q.1).isSome = true := by
    intro q hq
    rw [doChanges_store_isSome]
    obtain ⟨p, hp, he⟩ := hparts q hq
    rw [he]
    exact htxnP p hp
  have hvalat : ∀ p ∈ C, alookup (doChanges C S_T).2 p.1 = some p.2 := by
    intro p hp
    exact doChanges_store_lookup_mem C S_T p.1 p.2 htxnN hp (htxnP p hp)
  have hCkey_of : ∀ t, (∀ q ∈ (doChanges C S_T).1, q.1 ≠ t) → ∀ p ∈ C, p.1 ≠ t := by
    intro t h p hp
    exact h (p.1, (alookup S_T p.1).getD p.2) (doChanges_chg_mem_rev C S_T p htxnN hp)
  have hCkey_to : ∀ t, (∀ p ∈ C, p.1 ≠ t) → ∀ q ∈ (doChanges C S_T).1, q.1 ≠ t := by
    intro t h q hq
    obtain ⟨p, hp, he⟩ := hparts q hq
    rw [he]
    exact h p hp
  have hnonkey : ∀ t, (∀ p ∈ C, p.1 ≠ t) →
      alookup (doChanges C S_T).2 t = alookup S_T t :=
    fun t h => doChanges_store_ne C S_T t h
  have hcvL : ∀ q ∈ (doChanges C S_T).1, txnRefs q.2 ⊆ L := by
    intro q hq
    obtain ⟨p, hp, he⟩ := hparts q hq
    rw [he]
    intro b hb
    rw [getD_eq_of_isSome _ (htxnP p hp) p.2 default] at hb
    exact hclose p.1 (hkeys p hp).1 hb
  have hRaeq : refsOfSetS (doChanges C S_T).2 TA = refsOfSetS S_T TA := by
    apply refsOfSetS_congr
    intro i hi
    apply hnonkey
    intro p hp hc
    exact (hkeys p hp).2 (hc ▸ hi)
  have hRdL : refsOfSetS (doChanges C S_T).2 TD ⊆ L := by
    intro b hb
    rw [refsOfSetS_mem] at hb
    obtain ⟨i, hi, hbi⟩ := hb
    by_cases hiC : ∃ p ∈ C, p.1 = i
    · obtain ⟨p, hp, he⟩ := hiC
      subst he
      rw [hvalat p hp] at hbi
      simp only [Option.getD_some] at hbi
      exact hdead p hp hi hbi
    · rw [hnonkey i (fun p hp hc => hiC ⟨p, hp, hc⟩)] at hbi
      exact hclose i (htD hi) hbi
  have hnvval : ∀ p ∈ C,
      (alookup (doChanges C S_T).2 p.1).getD ((alookup S_T p.1).getD p.2) = p.2 := by
    intro p hp
    rw [hvalat p hp]
    rfl
  ext b
  constructor
  · -- forward: anything live after the round trip was live before
    intro hmem
    by_contra hbL
    have hbD : b ∉ D := fun h => hbL (hD h)
    have hwclean : ∀ q ∈ (doChanges C S_T).1, b ∉ txnRefs q.2 :=
      fun q hq hb => hbL (hcvL q hq hb)
    by_cases hbA : b ∈ A
    · -- removed added accounts stay removed
      refine doChangesTxns_out Tl _ _ _ b hwclean ?_ hmem
      intro hmem3
      obtain ⟨h1, -⟩ := Finset.mem_sdiff.mp hmem3
      rcases Finset.mem_union.mp h1 with h2 | h2
      · exact (Finset.mem_sdiff.mp h2).2 hbA
      · exact hbL (hRdL h2)
    · by_cases hbnv : ∃ p ∈ C, b ∈ txnRefs p.2
      · -- a fresh account referenced by incoming images: collected by the
        -- undo loop when its last referencing content is swapped away
        obtain ⟨p0, hp0, hb0⟩ := hbnv
        have hbfr : acFlag S_A b = true ∧ referencers Tl S_T b = ∅ := by
          apply hfresh
          rw [Finset.mem_sdiff]
          constructor
          · exact Finset.mem_union_right _ (chgNewRefs_mem C p0 b hp0 hb0)
          · intro hc
            rcases Finset.mem_union.mp hc with h | h
            · exact hbL h
            · exact hbA h
        refine doChangesTxns_out_of_kill Tl _ _ _ b hndC hpresC ?_ hbfr.1 hwclean ?_ ?_
          hmem
        · intro q hq
          exact (by
            obtain ⟨p, hp, he⟩ := hparts q hq
            rw [he]
            exact (hkeys p hp).1)
        · intro t ht hne hbt
          rw [hnonkey t (hCkey_of t hne)] at hbt
          have : t ∈ referencers Tl S_T b := (referencers_mem Tl S_T b t).mpr ⟨ht, hbt⟩
          rw [hbfr.2] at this
          cases this
        · refine ⟨(p0.1, (alookup S_T p0.1).getD p0.2),
            doChanges_chg_mem_rev C S_T p0 htxnN hp0, ?_⟩
          rw [hnvval p0 hp0]
          exact hb0
      · -- a fresh account never mentioned by incoming images: if the
        -- forward run created it (added-transaction reference), the undo
        -- delete loop collects it; otherwise it was never created
        refine doChangesTxns_out Tl _ _ _ b hwclean ?_ hmem
        intro hmem3
        obtain ⟨h1, hnotGadd⟩ := Finset.mem_sdiff.mp hmem3
        have hbRa : b ∈ refsOfSetS S_T TA := by
          rcases Finset.mem_union.mp h1 with h2 | h2
          · obtain ⟨h3, -⟩ := Finset.mem_sdiff.mp h2
            rcases Finset.mem_union.mp h3 with h4 | h4
            · -- b survived the forward loop: it must have been created from
              -- an added transaction's reference
              by_contra hbRa
              refine doChangesTxns_out ((Tl ∪ TA) \ TD) C S_T _ b ?_ ?_ h4
              · intro p hp hb
                exact hbnv ⟨p, hp, hb⟩
              · intro hmem4
                obtain ⟨h5, -⟩ := Finset.mem_sdiff.mp hmem4
                rcases Finset.mem_union.mp h5 with h6 | h6
                · rcases Finset.mem_union.mp (Finset.mem_sdiff.mp h6).1 with h7 | h7
                  · exact hbL h7
                  · exact hbA h7
                · exact hbRa h6
            · exact absurd h4 hbD
          · exact absurd (hRdL h2) hbL
        have hbfr : acFlag S_A b = true ∧ referencers Tl S_T b = ∅ := by
          apply hfresh
          rw [Finset.mem_sdiff]
          refine ⟨Finset.mem_union_left _ hbRa, ?_⟩
          intro hc
          rcases Finset.mem_union.mp hc with h | h
          · exact hbL h
          · exact hbA h
        apply hnotGadd
        rw [gcDeletes_mem]
        refine ⟨hRaeq ▸ hbRa, hbfr.1, ?_⟩
        intro t ht
        obtain ⟨htu, hbt⟩ := (referencers_mem _ _ b t).mp ht
        by_cases htC : ∃ p ∈ C, p.1 = t
        · obtain ⟨p, hp, he⟩ := htC
          subst he
          rw [getD_eq_of_isSome _ (by rw [doChanges_store_isSome]; exact htxnP p hp)
            default p.2, hvalat p hp] at hbt
          simp only [Option.getD_some] at hbt
          exact absurd ⟨p, hp, hbt⟩ hbnv
        · rw [hnonkey t (fun p hp hc => htC ⟨p, hp, hc⟩)] at hbt
          rcases Finset.mem_union.mp htu with h | h
          · exfalso
            have : t ∈ referencers Tl S_T b := (referencers_mem Tl S_T b t).mpr ⟨h, hbt⟩
            rw [hbfr.2] at this
            cases this
          · exact h
  · -- backward: everything live before survives the round trip
    intro hbL
    have hbA : b ∉ A := fun h =>
      Finset.eq_empty_iff_forall_not_mem.mp hA b (Finset.mem_inter.mpr ⟨h, hbL⟩)
    by_cases hbD : b ∈ D
    · -- deleted accounts are re-inserted by the undo step and mentioned by
      -- no incoming image, so the loop leaves them alone
      refine doChangesTxns_in_of_nocur Tl _ _ _ b hndC ?_ ?_
      · intro q hq hbq
        obtain ⟨p, hp, he⟩ := hparts q hq
        rw [he] at hbq
        rw [hnvval p hp] at hbq
        exact Finset.eq_empty_iff_forall_not_mem.mp (hchgD p hp) b
          (Finset.mem_inter.mpr ⟨hbq, hbD⟩)
      · rw [Finset.mem_sdiff]
        constructor
        · exact Finset.mem_union_left _
            (Finset.mem_sdiff.mpr ⟨Finset.mem_union_right _ hbD, hbA⟩)
        · intro hc
          obtain ⟨hc1, -⟩ := (gcDeletes_mem _ _ _ _ b).mp hc
          rw [hRaeq] at hc1
          exact Finset.eq_empty_iff_forall_not_mem.mp hTAD b
            (Finset.mem_inter.mpr ⟨hc1, hbD⟩)
    · by_cases hbac : acFlag S_A b = true
      · -- auto-created live account: it has a referencing live transaction
        obtain ⟨t0, ht0⟩ := Finset.nonempty_iff_ne_empty.mpr (hanchor b hbL hbac)
        obtain ⟨ht0Tl, ht0b⟩ := (referencers_mem Tl S_T b t0).mp ht0
        by_cases ht0C : ∃ p ∈ C, p.1 = t0
        · -- its referencing content is among the swapped ones: the undo
          -- loop writes it back and keeps the account
          obtain ⟨p, hp, he⟩ := ht0C
          subst he
          refine doChangesTxns_in_of_write Tl _ _ _ b
            (p.1, (alookup S_T p.1).getD p.2) hndC hpresC
            (doChanges_chg_mem_rev C S_T p htxnN hp) ?_ (hkeys p hp).1
          rw [getD_eq_of_isSome _ (htxnP p hp) p.2 default]
          exact ht0b
        · have hne : ∀ p ∈ C, p.1 ≠ t0 := fun p hp hc => ht0C ⟨p, hp, hc⟩
          have hcontb : b ∈ txnRefs ((alookup (doChanges C S_T).2 t0).getD default) := by
            rw [hnonkey t0 hne]
            exact ht0b
          have hnotGadd : b ∉ gcDeletes S_A (Tl ∪ TA) (doChanges C S_T).2 TA := by
            intro hc
            obtain ⟨-, -, hsub⟩ := (gcDeletes_mem _ _ _ _ b).mp hc
            have : t0 ∈ referencers (Tl ∪ TA) (doChanges C S_T).2 b :=
              (referencers_mem _ _ b t0).mpr ⟨Finset.mem_union_left _ ht0Tl, hcontb⟩
            have ht0TA := hsub this
            exact Finset.eq_empty_iff_forall_not_mem.mp htA t0
              (Finset.mem_inter.mpr ⟨ht0TA, ht0Tl⟩)
          by_cases ht0TD : t0 ∈ TD
          · -- its referencer is a deleted transaction: the undo adds phase
            -- re-creates the account from that content
            refine doChangesTxns_in_of_witness Tl _ _ _ b t0 ht0Tl
              (hCkey_to t0 hne) hcontb ?_
            rw [Finset.mem_sdiff]
            refine ⟨Finset.mem_union_right _ ?_, hnotGadd⟩
            rw [refsOfSetS_mem]
            exact ⟨t0, ht0TD, hcontb⟩
          · -- its referencer survives everything: shielded on both runs
            have hXR : b ∈ (doChangesTxns ((Tl ∪ TA) \ TD) C S_T
                (⟨((L ∪ A) \ D ∪ refsOfSetS S_T TA) \
                    gcDeletes s1 (Tl ∪ TA) S_T TD, s1⟩ : Table AccountData)).2.2.live := by
              refine doChangesTxns_in_of_witness ((Tl ∪ TA) \ TD) _ _ _ b t0
                (Finset.mem_sdiff.mpr ⟨Finset.mem_union_left _ ht0Tl, ht0TD⟩)
                hne ht0b ?_
              rw [Finset.mem_sdiff]
              constructor
              · exact Finset.mem_union_left _
                  (Finset.mem_sdiff.mpr ⟨Finset.mem_union_left _ hbL, hbD⟩)
              · intro hc
                obtain ⟨-, -, hsub⟩ := (gcDeletes_mem _ _ _ _ b).mp hc
                have : t0 ∈ referencers (Tl ∪ TA) S_T b :=
                  (referencers_mem _ _ b t0).mpr ⟨Finset.mem_union_left _ ht0Tl, ht0b⟩
                exact ht0TD (hsub this)
            refine doChangesTxns_in_of_witness Tl _ _ _ b t0 ht0Tl
              (hCkey_to t0 hne) hcontb ?_
            rw [Finset.mem_sdiff]
            refine ⟨Finset.mem_union_left _ ?_, hnotGadd⟩
            rw [Finset.mem_sdiff]
            exact ⟨Finset.mem_union_left _ hXR, hbA⟩
      · -- not auto-created: no collection ever applies
        have hbac' : acFlag S_A b = false := by
          cases h : acFlag S_A b
          · rfl
          · exact absurd h hbac
        have hXR : b ∈ (doChangesTxns ((Tl ∪ TA) \ TD) C S_T
            (⟨((L ∪ A) \ D ∪ refsOfSetS S_T TA) \
                gcDeletes s1 (Tl ∪ TA) S_T TD, s1⟩ : Table AccountData)).2.2.live := by
          refine doChangesTxns_in_of_noac _ _ _ _ b ?_ ?_
          · rw [show acFlag (⟨((L ∪ A) \ D ∪ refsOfSetS S_T TA) \
                gcDeletes s1 (Tl ∪ TA) S_T TD, s1⟩ : Table AccountData).store b =
                acFlag s1 b from rfl, hflag1]
            exact hbac'
          · rw [Finset.mem_sdiff]
            constructor
            · exact Finset.mem_union_left _
                (Finset.mem_sdiff.mpr ⟨Finset.mem_union_left _ hbL, hbD⟩)
            · intro hc
              obtain ⟨-, hfl, -⟩ := (gcDeletes_mem _ _ _ _ b).mp hc
              rw [hflag1] at hfl
              rw [hbac'] at hfl
              cases hfl
        refine doChangesTxns_in_of_noac _ _ _ _ b hbac' ?_
        rw [Finset.mem_sdiff]
        constructor
        · exact Finset.mem_union_left _
            (Finset.mem_sdiff.mpr ⟨Finset.mem_union_left _ hXR, hbA⟩)
        · intro hc
          obtain ⟨-, hfl, -⟩ := (gcDeletes_mem _ _ _ _ b).mp hc
          rw [hbac'] at hfl
          cases hfl

/-- Field-wise equality of tables. -/
theorem tableEq {α : Type} (T U : Table α) (h1 : T.live = U.live)
    (h2 : T.store = U.store) : T = U := by
  cases T
  cases U
  cases h1
  cases h2
  rfl

/-- Field-wise equality of graphs. -/
theorem graphEq (g1 g2 : Graph) (h1 : g1.accounts = g2.accounts)
    (h2 : g1.groups = g2.groups) (h3 : g1.txns = g2.txns)
    (h4 : g1.schedules = g2.schedules) (h5 : g1.budgets = g2.budgets) : g1 = g2 := by
  cases g1
  cases g2
  cases h1
  cases h2
  cases h3
  cases h4
  cases h5
  rfl

/-- Undoing an action right after replaying it restores the action (the
images back to before-images) and the graph exactly, including the
collection and re-creation of auto-created accounts, provided the graph
is consistent and the action was recorded on it. -/
theorem undoAction_redoAction (a : UAction) (g : Graph)
    (hg : WFgraph g) (hwf : WFaction a g) :
    undoAction (redoAction a g).1 (redoAction a g).2 = (a, g) := by
  unfold WFgraph at hg
  unfold WFaction WFdiff at hwf
  obtain ⟨⟨hAa, hDa, hADa, hNa, hPa⟩, ⟨hAg, hDg, hADg, hNg, hPg⟩,
    ⟨hAt, hDt, hADt, hNt, hPt⟩, ⟨hAs, hDs, hADs, hNs, hPs⟩,
    ⟨hAb, hDb, hADb, hNb, hPb⟩, hkeys, hfresh, hchgD, hdead, hTAD, hflagp⟩ := hwf
  obtain ⟨hclose, hanchor⟩ := hg
  have hArt := doChanges_roundtrip a.accountsDiff.chg g.accounts.store hNa hPa
  have hGrt := doChanges_roundtrip a.groupsDiff.chg g.groups.store hNg hPg
  have hTrt := doChanges_roundtrip a.txnsDiff.chg g.txns.store hNt hPt
  have hSrt := doChanges_roundtrip a.schedulesDiff.chg g.schedules.store hNs hPs
  have hBrt := doChanges_roundtrip a.budgetsDiff.chg g.budgets.store hNb hPb
  have hflag1 := acFlag_doChanges a.accountsDiff.chg g.accounts.store hNa hPa hflagp
  have htl1 : (g.txns.live ∪ a.txnsDiff.added) \ a.txnsDiff.deleted ∪ a.txnsDiff.deleted
      = g.txns.live ∪ a.txnsDiff.added := by
    ext x
    simp only [Finset.mem_union, Finset.mem_sdiff]
    constructor
    · rintro (⟨h, -⟩ | h)
      · exact h
      · exact Or.inl (hDt h)
    · intro h
      by_cases hd : x ∈ a.txnsDiff.deleted
      · exact Or.inr hd
      · exact Or.inl ⟨h, hd⟩
  have htl2 : (g.txns.live ∪ a.txnsDiff.added) \ a.txnsDiff.added = g.txns.live := by
    ext x
    simp only [Finset.mem_union, Finset.mem_sdiff]
    constructor
    · rintro ⟨h | h, hn⟩
      · exact h
      · exact absurd h hn
    · intro h
      refine ⟨Or.inl h, fun hc => ?_⟩
      exact Finset.eq_empty_iff_forall_not_mem.mp hAt x (Finset.mem_inter.mpr ⟨hc, h⟩)
  have hliveRT := accounts_live_roundtrip g.accounts.live a.accountsDiff.added
    a.accountsDiff.deleted (doChanges a.accountsDiff.chg g.accounts.store).2
    g.accounts.store g.txns.live a.txnsDiff.added a.txnsDiff.deleted g.txns.store
    a.txnsDiff.chg hAa hDa hAt hDt hNt hPt hkeys hfresh hchgD hdead hTAD hclose
    hanchor hflag1
  simp only [undoAction, redoAction, undoStepRun, doAddsAcc, doDeletesAcc,
    doChangesTxns_accStore, doChangesTxns_store, doChangesTxns_chg, hArt, hGrt,
    hTrt, hSrt, hBrt, htl1, htl2]
  rw [Prod.mk.injEq]
  refine ⟨rfl, graphEq _ _ ?_ ?_ ?_ ?_ ?_⟩
  · refine tableEq _ _ ?_ ?_
    · exact hliveRT
    · rw [doChangesTxns_accStore]
  · exact tableEq _ _ (live_roundtrip g.groups.live a.groupsDiff.added
      a.groupsDiff.deleted hAg hDg) rfl
  · rfl
  · exact tableEq _ _ (live_roundtrip g.schedules.live a.schedulesDiff.added
      a.schedulesDiff.deleted hAs hDs) rfl
  · exact tableEq _ _ (live_roundtrip g.budgets.live a.budgetsDiff.added
      a.budgetsDiff.deleted hAb hDb) rfl

/-- Setting the cell right after a prefix. -/
theorem list_set_at_len {α : Type} (xs : List α) (y z : α) (ys : List α) :
    (xs ++ y :: ys).set xs.length z = xs ++ z :: ys := by
  induction xs with
  | nil => rfl
  | cons x rest ih =>
    simp only [List.cons_append, List.length_cons, List.set]
    exact congrArg (List.cons x) ih

/-- Negative indexing from the back lands right after the prefix. -/
theorem pyGet_append (xs : List UAction) (y : UAction) (ys : List UAction) :
    pyGet (xs ++ y :: ys) (-1 - (ys.length : Int)) = some y := by
  have hlen : (((xs ++ y :: ys).length : Nat) : Int)
      = (xs.length : Int) + (ys.length : Int) + 1 := by
    simp only [List.length_append, List.length_cons]
    push_cast
    ring
  unfold pyGet
  rw [hlen, if_pos (by omega), if_neg (by omega)]
  have ht : ((xs.length : Int) + (ys.length : Int) + 1 + (-1 - (ys.length : Int))).toNat
      = xs.length := by omega
  rw [ht, List.get?_eq_getElem?, List.getElem?_append_right (Nat.le_refl _)]
  simp

/-- Negative-index write lands right after the prefix. -/
theorem pySet_append (xs : List UAction) (y z : UAction) (ys : List UAction) :
    pySet (xs ++ y :: ys) (-1 - (ys.length : Int)) z = xs ++ z :: ys := by
  have hlen : (((xs ++ y :: ys).length : Nat) : Int)
      = (xs.length : Int) + (ys.length : Int) + 1 := by
    simp only [List.length_append, List.length_cons]
    push_cast
    ring
  unfold pySet
  rw [hlen, if_pos (by omega)]
  have ht : ((xs.length : Int) + (ys.length : Int) + 1 + (-1 - (ys.length : Int))).toNat
      = xs.length := by omega
  rw [ht]
  exact list_set_at_len xs y z ys

/-- One undo with the cursor over the backup of a just-replayed action:
the assertion passes, the incoming action is written back in place and the
graph returns to its pre-action state. -/
theorem undo_step (base tail : List UAction) (sp : Option Nat) (g1 : Graph)
    (a : UAction) (hg : WFgraph g1) (hwfa : WFaction a g1) :
    Undoer.undo ⟨base ++ (redoAction a g1).1 :: tail, -1 - (tail.length : Int), sp,
        (redoAction a g1).2⟩ =
      .ok ⟨base ++ a :: tail, -2 - (tail.length : Int), sp, g1⟩ := by
  have hcu : (⟨base ++ (redoAction a g1).1 :: tail, -1 - (tail.length : Int), sp,
      (redoAction a g1).2⟩ : Undoer).canUndo = true := by
    unfold Undoer.canUndo
    simp only [List.length_append, List.length_cons, decide_eq_true_eq]
    push_cast
    omega
  unfold Undoer.undo
  rw [if_neg (fun hn => hn hcu)]
  dsimp only
  rw [pyGet_append base ((redoAction a g1).1) tail]
  dsimp only
  rw [undoAction_redoAction a g1 hg hwfa]
  dsimp only
  rw [pySet_append base ((redoAction a g1).1) a tail]
  have hidx : -1 - (tail.length : Int) - 1 = -2 - (tail.length : Int) := by ring
  rw [hidx]

/-- One redo with the cursor just below an incoming action: the assertion
passes, the action's backup form is written back in place and the graph
advances to the post-action state. -/
theorem redo_step (base tail : List UAction) (sp : Option Nat) (g1 : Graph)
    (a : UAction) :
    Undoer.redo ⟨base ++ a :: tail, -2 - (tail.length : Int), sp, g1⟩ =
      .ok ⟨base ++ (redoAction a g1).1 :: tail, -1 - (tail.length : Int), sp,
        (redoAction a g1).2⟩ := by
  have hcr : (⟨base ++ a :: tail, -2 - (tail.length : Int), sp, g1⟩ : Undoer).canRedo
      = true := by
    unfold Undoer.canRedo
    simp only [decide_eq_true_eq]
    omega
  unfold Undoer.redo
  rw [if_neg (fun hn => hn hcr)]
  dsimp only
  have hidx : -2 - (tail.length : Int) + 1 = -1 - (tail.length : Int) := by ring
  rw [hidx, pyGet_append base a tail]
  dsimp only
  rw [pySet_append base a ((redoAction a g1).1) tail]

/-- Replaying a concatenation replays the parts in order. -/
theorem applyGraphs_append (l1 l2 : List UAction) :
    ∀ (g : Graph), applyGraphs g (l1 ++ l2) = applyGraphs (applyGraphs g l1) l2 := by
  induction l1 with
  | nil => intro g; rfl
  | cons a rest ih =>
    intro g
    simp only [List.cons_append, applyGraphs]
    exact ih _

/-- Backup forms of a concatenation. -/
theorem backupForms_append (l1 l2 : List UAction) :
    ∀ (g : Graph), backupForms g (l1 ++ l2)
      = backupForms g l1 ++ backupForms (applyGraphs g l1) l2 := by
  induction l1 with
  | nil => intro g; rfl
  | cons a rest ih =>
    intro g
    simp only [List.cons_append, backupForms, applyGraphs]
    exact congrArg (List.cons _) (ih _)

/-- Sequence consistency splits over concatenation. -/
theorem WFseq_append (l1 l2 : List UAction) :
    ∀ (g : Graph), WFseq g (l1 ++ l2) ↔ WFseq g l1 ∧ WFseq (applyGraphs g l1) l2 := by
  induction l1 with
  | nil =>
    intro g
    simp only [List.nil_append, WFseq, applyGraphs]
    exact ⟨fun h => ⟨trivial, h⟩, fun h => h.2⟩
  | cons a rest ih =>
    intro g
    simp only [List.cons_append, WFseq, applyGraphs]
    rw [show rest.append l2 = rest ++ l2 from rfl, ih]
    tauto

/-- iterateUndo steps through a successful undo. -/
theorem iterateUndo_okStep (n : Nat) (u u2 : Undoer) (h : u.undo = .ok u2) :
    iterateUndo (n + 1) u = iterateUndo n u2 := by
  simp only [iterateUndo, h]

/-- iterateRedo steps through a successful redo. -/
theorem iterateRedo_okStep (n : Nat) (u u2 : Undoer) (h : u.redo = .ok u2) :
    iterateRedo (n + 1) u = iterateRedo n u2 := by
  simp only [iterateRedo, h]

/-- Undoing a consistent replayed block from its far end: every assertion
passes, the block's stored actions return to their incoming forms and the
graph returns to the block's pre-state; the cursor descends below the
block. -/
theorem iterate_undo_run (l : List UAction) :
    ∀ (base tail : List UAction) (sp : Option Nat) (g0 : Graph), WFseq g0 l →
    iterateUndo l.length
      ⟨base ++ backupForms g0 l ++ tail, -1 - (tail.length : Int), sp,
        applyGraphs g0 l⟩ =
      .ok ⟨base ++ l ++ tail, -1 - (tail.length : Int) - l.length, sp, g0⟩ := by
  induction l using List.reverseRecOn with
  | nil =>
    intro base tail sp g0 _
    simp only [backupForms, applyGraphs, List.append_nil, List.length_nil,
      List.length_nil, Nat.cast_zero, sub_zero, iterateUndo]
  | append_singleton l' a ih =>
    intro base tail sp g0 hwf
    rw [WFseq_append l' [a] g0] at hwf
    obtain ⟨hwf1, hwf2⟩ := hwf
    simp only [WFseq] at hwf2
    obtain ⟨hg1, hwa, -⟩ := hwf2
    rw [backupForms_append l' [a] g0, applyGraphs_append l' [a] g0]
    simp only [backupForms, applyGraphs, List.length_append, List.length_cons,
      List.length_nil, Nat.zero_add]
    have hL : base ++ (backupForms g0 l' ++ [(redoAction a (applyGraphs g0 l')).1]) ++ tail
        = (base ++ backupForms g0 l') ++ (redoAction a (applyGraphs g0 l')).1 :: tail := by
      simp
    rw [hL]
    rw [iterateUndo_okStep l'.length _ _
      (undo_step (base ++ backupForms g0 l') tail sp (applyGraphs g0 l') a hg1 hwa)]
    have hidx : -2 - (tail.length : Int) = -1 - ((a :: tail).length : Int) := by
      simp only [List.length_cons]
      push_cast
      ring
    rw [hidx, ih base (a :: tail) sp g0 hwf1]
    simp only [Except.ok.injEq, Undoer.mk.injEq, List.length_append, List.length_cons,
      List.length_nil, Nat.zero_add]
    refine ⟨by simp, by push_cast; ring, trivial, trivial⟩

/-- Redoing a block of incoming actions from its near end: every
assertion passes, the stored actions become the backup forms again and
the graph advances to the block's post-state; the cursor climbs back
above the block. -/
theorem iterate_redo_run (l : List UAction) :
    ∀ (base tail : List UAction) (sp : Option Nat) (g0 : Graph),
    iterateRedo l.length
      ⟨base ++ l ++ tail, -1 - (tail.length : Int) - l.length, sp, g0⟩ =
      .ok ⟨base ++ backupForms g0 l ++ tail, -1 - (tail.length : Int), sp,
        applyGraphs g0 l⟩ := by
  induction l with
  | nil =>
    intro base tail sp g0
    simp only [backupForms, applyGraphs, List.append_nil, List.length_nil,
      Nat.cast_zero, sub_zero, iterateRedo]
  | cons a l' ih =>
    intro base tail sp g0
    simp only [backupForms, applyGraphs, List.length_cons]
    have hLin : base ++ a :: l' ++ tail = base ++ a :: (l' ++ tail) := by
      simp
    have hidx : -1 - (tail.length : Int) - ((l'.length : Nat) + 1 : Nat)
        = -2 - (((l' ++ tail).length : Nat) : Int) := by
      simp only [List.length_append]
      push_cast
      ring
    rw [hLin, hidx]
    rw [iterateRedo_okStep l'.length _ _ (redo_step base (l' ++ tail) sp g0 a)]
    have hLmid : base ++ (redoAction a g0).1 :: (l' ++ tail)
        = (base ++ [(redoAction a g0).1]) ++ l' ++ tail := by
      simp
    have hidx2 : -1 - (((l' ++ tail).length : Nat) : Int)
        = -1 - (tail.length : Int) - (l'.length : Int) := by
      simp only [List.length_append]
      push_cast
      ring
    rw [hLmid, hidx2, ih (base ++ [(redoAction a g0).1]) tail sp ((redoAction a g0).2)]
    simp only [Except.ok.injEq, Undoer.mk.injEq]
    refine ⟨by simp, trivial, trivial, trivial⟩

/-- Recording the replayed form of one incoming action with the cursor at
the end: the backup form is appended and the cursor stays at the end. -/
theorem applyAndRecord_eq (u : Undoer) (a : UAction) (h : u.index = -1) :
    applyAndRecord u a =
      ⟨u.actions ++ [(redoAction a u.graph).1], -1, u.savePoint,
        (redoAction a u.graph).2⟩ := by
  unfold applyAndRecord Undoer.record
  rw [h]
  rw [if_neg (by omega)]

/-- Applying and recording a whole incoming list with the cursor at the
end: the actions pick up the backup forms in order, the graph is replayed
and the cursor stays at the end. -/
theorem foldl_applyAndRecord (acts : List UAction) :
    ∀ (u : Undoer), u.index = -1 →
    acts.foldl applyAndRecord u =
      ⟨u.actions ++ backupForms u.graph acts, -1, u.savePoint,
        applyGraphs u.graph acts⟩ := by
  induction acts with
  | nil =>
    intro u h
    cases u
    simp only [List.foldl_nil, backupForms, applyGraphs, List.append_nil]
    simp_all
  | cons a rest ih =>
    intro u h
    simp only [List.foldl_cons]
    rw [applyAndRecord_eq u a h]
    rw [ih _ rfl]
    simp only [backupForms, applyGraphs, Undoer.mk.injEq]
    refine ⟨by simp, trivial, trivial, trivial⟩

/-- C2: for every sequence of N recorded actions — each consistent with
the graph it was recorded on, including remove-account actions whose
changed transactions reference the deleted accounts and actions whose
replay auto-creates referenced accounts (collected again on undo,
re-created on redo) — undoing N times and then redoing N times first
restores the entity graph exactly to its pre-sequence state and then
exactly back to its post-sequence state, with every assertion passing;
and the changed-entity swap used by both directions is its own
inverse. -/
theorem undo_redo_symmetry (u0 : Undoer) (acts : List UAction)
    (h0 : u0.index = -1) (hwf : WFseq u0.graph acts) :
    (acts.foldl applyAndRecord u0).graph = applyGraphs u0.graph acts ∧
    iterateUndo acts.length (acts.foldl applyAndRecord u0) =
      .ok ⟨u0.actions ++ acts, -1 - (acts.length : Int), u0.savePoint, u0.graph⟩ ∧
    iterateRedo acts.length
      ⟨u0.actions ++ acts, -1 - (acts.length : Int), u0.savePoint, u0.graph⟩ =
      .ok (acts.foldl applyAndRecord u0) ∧
    (∀ (chg store : List (Nat × TxnData)), (chg.map (·.1)).Nodup →
      (∀ p ∈ chg, (alookup store p.1).isSome = true) →
      doChanges (doChanges chg store).1 (doChanges chg store).2 = (chg, store)) := by
  have hu1 := foldl_applyAndRecord acts u0 h0
  have hundo := iterate_undo_run acts u0.actions [] u0.savePoint u0.graph hwf
  have hredo := iterate_redo_run acts u0.actions [] u0.savePoint u0.graph
  simp only [List.append_nil, List.length_nil, Nat.cast_zero, sub_zero]
    at hundo hredo
  refine ⟨?_, ?_, ?_, ?_⟩
  · rw [hu1]
  · rw [hu1]
    exact hundo
  · rw [hu1]
    exact hredo
  · exact fun chg store hnd hpres => doChanges_roundtrip chg store hnd hpres

/-- Witness: the concrete two-action run — change an account's payload,
then insert a transaction referencing the auto-created account 9 while
changing another transaction — satisfies the consistency hypotheses and
round-trips. -/
theorem undo_redo_symmetry_witness :
    (symW.index = -1 ∧ WFseq symW.graph symActs) ∧
    ((symActs.foldl applyAndRecord symW).graph = applyGraphs symW.graph symActs ∧
      iterateUndo symActs.length (symActs.foldl applyAndRecord symW) =
        .ok ⟨symW.actions ++ symActs, -1 - (symActs.length : Int), symW.savePoint,
          symW.graph⟩ ∧
      iterateRedo symActs.length
        ⟨symW.actions ++ symActs, -1 - (symActs.length : Int), symW.savePoint,
          symW.graph⟩ = .ok (symActs.foldl applyAndRecord symW) ∧
      (∀ (chg store : List (Nat × TxnData)), (chg.map (·.1)).Nodup →
        (∀ p ∈ chg, (alookup store p.1).isSome = true) →
        doChanges (doChanges chg store).1 (doChanges chg store).2 = (chg, store))) :=
  ⟨⟨by decide, by decide⟩, undo_redo_symmetry symW symActs (by decide) (by decide)⟩
